import Mathlib

/-!
# WOTS-Go key schedule: digest stream generator, seed derivation, component
separation, keypair assembly and keychain

A shallow embedding of `src/prng.go` and `src/main.go`.

* Bytes are `Fin 256`; byte slices and fixed-size byte arrays are `List Byte`.
* `uint32` and `uint64` values are `Nat`, with the wrap-around of `++` written
  as an explicit `% 2^32` resp. `% 2^64`.
* SHA-512 and SHA-256 come from the Go standard library; they are taken as
  arbitrary functions with their fixed output size (`WideHash`, `NarrowHash`).
* The three cgo primitives of `src/wots.go` and the secure random source are
  parameters as well.
-/

namespace WOTS

/-! ## Bytes, slices and library primitives -/

abbrev Byte := Fin 256

/-- Go conversion `byte(v)` of an unsigned integer: keep the low eight bits. -/
def byte (v : Nat) : Byte := ⟨v % 256, Nat.mod_lt v (by decide)⟩

/-- Contents written by `binary.BigEndian.PutUint32(b, v)` into a 4-byte buffer:
`b[0] = byte(v >> 24)`, ..., `b[3] = byte(v)`. -/
def PutUint32 (v : Nat) : List Byte :=
  [byte (v / 2 ^ 24), byte (v / 2 ^ 16), byte (v / 2 ^ 8), byte v]

/-- Contents written by `binary.BigEndian.PutUint64(b, v)` into an 8-byte buffer:
`b[0] = byte(v >> 56)`, ..., `b[7] = byte(v)`. -/
def PutUint64 (v : Nat) : List Byte :=
  [byte (v / 2 ^ 56), byte (v / 2 ^ 48), byte (v / 2 ^ 40), byte (v / 2 ^ 32),
   byte (v / 2 ^ 24), byte (v / 2 ^ 16), byte (v / 2 ^ 8), byte v]

/-- Go `make([]byte, n)`: `n` zero bytes. -/
def makeBytes (n : Nat) : List Byte := List.replicate n 0

/-- Go builtin `copy(dst, src)`: the contents of `dst` afterwards. The first
`min(len(dst), len(src))` bytes are overwritten by those of `src`. -/
def goCopy (dst src : List Byte) : List Byte :=
  src.take dst.length ++ dst.drop src.length

/-- Go `crypto/sha512`: writing `data` to a fresh `sha512.New()` and calling `Sum(nil)`
gives a digest of `sha512.Size = 64` bytes. -/
structure WideHash where
  sum : List Byte → List Byte
  size_eq : ∀ data, (sum data).length = 64

/-- Go `crypto/sha256`: `sha256.Sum256(data)` is a `[32]byte`. -/
structure NarrowHash where
  sum256 : List Byte → List Byte
  size_eq : ∀ data, (sum256 data).length = 32

/-- A Go byte slice as seen from its first element: `arr` is the backing array
from that element on (so `arr.length` is the capacity), `len` is the length. -/
structure Slice where
  arr : List Byte
  len : Nat
deriving DecidableEq

/-- The bytes a slice holds. -/
def Slice.bytes (s : Slice) : List Byte := s.arr.take s.len

/-- Capacity `cap(s)`. -/
def Slice.cap (s : Slice) : Nat := s.arr.length

/-- Slice expression `a[:]` over a whole array: length and capacity are both `len(a)`. -/
def Slice.ofArray (a : List Byte) : Slice := ⟨a, a.length⟩

/-- Go builtin `append(s, xs...)`. Returns the resulting slice together with the
backing array of `s` after the call: when the capacity suffices the bytes are
written in place behind `s`, otherwise a new array is allocated and the old one
is left alone. -/
def goAppend (s : Slice) (xs : List Byte) : Slice × List Byte :=
  if s.len + xs.length ≤ s.cap then
    let arr1 := s.arr.take s.len ++ xs ++ s.arr.drop (s.len + xs.length)
    (⟨arr1, s.len + xs.length⟩, arr1)
  else
    (⟨s.bytes ++ xs, s.len + xs.length⟩, s.arr)

/-! ## `src/prng.go`: the digest stream generator -/

structure DigestRandomGenerator where
  seed : List Byte
  digest : List Byte
  count : Nat
deriving DecidableEq

def NewDigestRandomGenerator : DigestRandomGenerator :=
  { seed := makeBytes 0, digest := makeBytes 0, count := 0 }

def generateNextDigest (H : WideHash) (g : DigestRandomGenerator) : DigestRandomGenerator :=
  let countBytes := PutUint32 g.count
  { g with digest := H.sum (g.seed ++ countBytes), count := (g.count + 1) % 2 ^ 32 }

def AddSeedMaterial (H : WideHash) (g : DigestRandomGenerator) (seed : List Byte) :
    DigestRandomGenerator :=
  generateNextDigest H { g with seed := g.seed ++ seed }

/-- The `if len(g.digest) == 0 { g.generateNextDigest() }` at the head of the loop body of
`NextBytes`. -/
def refill (H : WideHash) (g : DigestRandomGenerator) : DigestRandomGenerator :=
  if g.digest.length = 0 then generateNextDigest H g else g

/-- The `copyLen` of one iteration of `NextBytes`. -/
def copyLen (remaining digestRemaining : Nat) : Nat :=
  if digestRemaining < remaining then digestRemaining else remaining

/-- The `for pos < length { ... }` loop of `NextBytes`, from the state `(g, result, pos)`.
Every iteration copies at least one byte, since a digest has 64 bytes. -/
def nextBytesLoop (H : WideHash) (length : Nat) (g : DigestRandomGenerator)
    (result : List Byte) (pos : Nat) : List Byte × DigestRandomGenerator :=
  if pos < length then
    let g1 := refill H g
    let remaining := length - pos
    let digestRemaining := g1.digest.length
    let n := copyLen remaining digestRemaining
    let result1 := result.take pos ++ goCopy (result.drop pos) (g1.digest.take n)
    nextBytesLoop H length { g1 with digest := g1.digest.drop n } result1 (pos + n)
  else
    (result, g)
termination_by length - pos
decreasing_by
  have hpos : 0 < (refill H g).digest.length := by
    unfold refill
    split
    · simp [generateNextDigest, H.size_eq]
    · omega
  simp only [copyLen]
  split <;> omega

/-- Limit of the Go runtime on the size of one allocation, `runtime.maxAlloc`: `1 << 48`
on the 64-bit platforms with 48-bit heap addresses, such as linux/amd64. -/
def maxAlloc : Nat := 2 ^ 48

/-- Go `make([]byte, length)` for a `length` of type `int`, as `runtime.makeslice` does it:
`none` is the panic `makeslice: len out of range`, raised for a negative length and for a
length above `maxAlloc`; otherwise `length` zero bytes. A machine that has not got the
memory for a length within the limit stops the process with a fatal error; that depends on
the machine and is not part of the model. -/
def makeSlice (length : Int) : Option (List Byte) :=
  if length < 0 ∨ (maxAlloc : Int) < length then none
  else some (makeBytes length.toNat)

/-- Method `NextBytes(length int)`: `none` stands for the run-time panic of
`make([]byte, length)`; otherwise the bytes returned and the generator afterwards. -/
def NextBytes (H : WideHash) (g : DigestRandomGenerator) (length : Int) :
    Option (List Byte × DigestRandomGenerator) :=
  match makeSlice length with
  | none => none
  | some result => some (nextBytesLoop H length.toNat g result 0)

/-- The loop of `NextBytes` once more, with the run-time checks of its slice expressions
`result[pos:]`, `g.digest[:copyLen]` and `g.digest[copyLen:]` written out: `none` is an
out-of-range panic. -/
def nextBytesLoopChecked (H : WideHash) (length : Nat) (g : DigestRandomGenerator)
    (result : List Byte) (pos : Nat) : Option (List Byte × DigestRandomGenerator) :=
  if pos < length then
    let g1 := refill H g
    let remaining := length - pos
    let digestRemaining := g1.digest.length
    let n := copyLen remaining digestRemaining
    if pos ≤ result.length ∧ n ≤ g1.digest.length then
      let result1 := result.take pos ++ goCopy (result.drop pos) (g1.digest.take n)
      nextBytesLoopChecked H length { g1 with digest := g1.digest.drop n } result1 (pos + n)
    else
      none
  else
    some (result, g)
termination_by length - pos
decreasing_by
  have hpos : 0 < (refill H g).digest.length := by
    unfold refill
    split
    · simp [generateNextDigest, H.size_eq]
    · omega
  simp only [copyLen]
  split <;> omega

/-- Method `NextBytes(length int)` with the run-time checks of the slice expressions in the
loop written out, next to the one of `make`. -/
def NextBytesChecked (H : WideHash) (g : DigestRandomGenerator) (length : Int) :
    Option (List Byte × DigestRandomGenerator) :=
  match makeSlice length with
  | none => none
  | some result => nextBytesLoopChecked H length.toNat g result 0

/-! ## `src/wots.go` and the random source: external collaborators -/

/-- The three cgo wrappers of `src/wots.go`; the C code behind them is an external
primitive and stays abstract. -/
structure WotsPrimitive where
  wotsPkgen : List Byte → List Byte → List Byte → List Byte
  wotsSign : List Byte → List Byte → List Byte → List Byte → List Byte
  wotsPkFromSig : List Byte → List Byte → List Byte → List Byte → List Byte

/-- The process-wide `crypto/rand` reader: `outcome k` is what the `k`-th call of
`rand.Read` on a 32-byte buffer does (`none`: it returns an error, `some r`: it fills
the buffer with `r`), and `reads` counts the calls made so far. -/
structure RandSource where
  outcome : Nat → Option (List Byte)
  reads : Nat

/-- One call `rand.Read(buf)`: its outcome and the source afterwards. -/
def RandSource.read (rnd : RandSource) : Option (List Byte) × RandSource :=
  (rnd.outcome rnd.reads, { rnd with reads := rnd.reads + 1 })

/-- Bytes of an ASCII Go string literal: one byte per character, its code. -/
def stringLit (s : String) : List Byte := s.toList.map (fun c => byte c.toNat)

/-! ## `src/main.go` -/

structure Keychain where
  Seed : List Byte
  Index : Nat
deriving DecidableEq

structure Components where
  PrivateSeed : List Byte
  PublicSeed : List Byte
  AddrSeed : List Byte
deriving DecidableEq

structure Keypair where
  PublicKey : List Byte
  PrivateKey : List Byte
  Components : WOTS.Components
deriving DecidableEq

/-- The zero value `Keypair{}`. -/
def Keypair.zero : Keypair :=
  { PublicKey := makeBytes 2144, PrivateKey := makeBytes 32,
    Components := { PrivateSeed := makeBytes 32, PublicSeed := makeBytes 32,
                    AddrSeed := makeBytes 32 } }

/-- The zero value `Keychain{}`. -/
def Keychain.zero : Keychain := { Seed := makeBytes 32, Index := 0 }

def mochimoHash (N : NarrowHash) (data : List Byte) : List Byte :=
  let hash := N.sum256 data
  hash

/-- A Go string is a byte sequence: `string(b)` and `[]byte(s)` copy the bytes as they
are and `+` concatenates them. -/
def componentsGenerator (N : NarrowHash) (wotsSeed : List Byte) : Components :=
  let seedAscii := wotsSeed
  let privateSeed := mochimoHash N (seedAscii ++ stringLit "seed")
  let publicSeed := mochimoHash N (seedAscii ++ stringLit "publ")
  let addrSeed := mochimoHash N (seedAscii ++ stringLit "addr")
  { PrivateSeed := privateSeed, PublicSeed := publicSeed, AddrSeed := addrSeed }

def keygenFromSeed (N : NarrowHash) (W : WotsPrimitive) (private_key : List Byte) : Keypair :=
  let components := componentsGenerator N private_key
  let pk := W.wotsPkgen components.PrivateSeed components.PublicSeed components.AddrSeed
  { PublicKey := pk, PrivateKey := private_key, Components := components }

/-- Result of a function returning `(T, error)`, a nil error being `none`. -/
structure WithError (α : Type) where
  val : α
  err : Option String

/-- Variadic `Keygen(private_key ...[32]byte)`: the arguments are a list. Returns the
Go result and the random source afterwards. -/
def Keygen (N : NarrowHash) (W : WotsPrimitive) (private_key : List (List Byte))
    (rnd : RandSource) : WithError Keypair × RandSource :=
  match private_key with
  | [] =>
    match rnd.read with
    | (none, rnd1) => (⟨Keypair.zero, some "failed to generate random private key"⟩, rnd1)
    | (some r, rnd1) =>
      let randomKey := goCopy (makeBytes 32) r
      (⟨keygenFromSeed N W randomKey, none⟩, rnd1)
  | k :: _ => (⟨keygenFromSeed N W k, none⟩, rnd)

def Keypair.Sign (W : WotsPrimitive) (keypair : Keypair) (message : List Byte) : List Byte :=
  let sig := W.wotsSign message keypair.Components.PrivateSeed keypair.Components.PublicSeed
    keypair.Components.AddrSeed
  sig

def Keypair.Verify (W : WotsPrimitive) (keypair : Keypair) (message signature : List Byte) :
    Bool :=
  let pk := W.wotsPkFromSig signature message keypair.Components.PublicSeed
    keypair.Components.AddrSeed
  pk == keypair.PublicKey

def newKeychainFromSeed (seed : List Byte) : Keychain :=
  { Seed := seed, Index := 0 }

def NewKeychain (seed : List (List Byte)) (rnd : RandSource) :
    WithError Keychain × RandSource :=
  match seed with
  | [] =>
    match rnd.read with
    | (none, rnd1) => (⟨Keychain.zero, some "failed to generate random private key"⟩, rnd1)
    | (some r, rnd1) =>
      let randomKey := goCopy (makeBytes 32) r
      (⟨newKeychainFromSeed randomKey, none⟩, rnd1)
  | s :: _ => (⟨newKeychainFromSeed s, none⟩, rnd)

/-- What `DeriveSeed` returns, and what it leaves in the backing array of its slice
argument. -/
structure Derived where
  secret : List Byte
  prng : DigestRandomGenerator
  backing : List Byte
deriving DecidableEq

/-- Function `DeriveSeed(deterministicSeed []byte, id uint64)`; `none` is a run-time
panic. -/
def DeriveSeed (H : WideHash) (deterministicSeed : Slice) (id : Nat) : Option Derived :=
  let idBytes := goCopy (makeBytes 8) (PutUint64 id)
  let (input, backing) := goAppend deterministicSeed idBytes
  let localSeed := H.sum input.bytes
  let prng := NewDigestRandomGenerator
  let prng := AddSeedMaterial H prng localSeed
  match NextBytes H prng 32 with
  | none => none
  | some (secret, prng) => some { secret := secret, prng := prng, backing := backing }

/-- What a call of `Next` returns and leaves behind. -/
structure NextResult where
  keypair : Keypair
  keychain : Keychain
  rnd : RandSource

/-- Method `(keychain *Keychain) Next()`; `none` is a run-time panic. The array
`keychain.Seed` is the backing array of the slice `keychain.Seed[:]` handed to
`DeriveSeed`, so it is read back after the call. -/
def Keychain.Next (H : WideHash) (N : NarrowHash) (W : WotsPrimitive) (keychain : Keychain)
    (rnd : RandSource) : Option NextResult :=
  match DeriveSeed H (Slice.ofArray keychain.Seed) keychain.Index with
  | none => none
  | some d =>
    let keychain1 : Keychain := { keychain with Seed := d.backing }
    let privateKey := goCopy (makeBytes 32) d.secret
    let (r, rnd1) := Keygen N W [privateKey] rnd
    let keypair := r.val
    some { keypair := keypair,
           keychain := { keychain1 with Index := (keychain1.Index + 1) % 2 ^ 64 },
           rnd := rnd1 }

/-! ## Reference definitions used to state the properties -/

/-- Big-endian encoding of `v` in `w` bytes (of `v mod 256^w` when `v` is larger). -/
def bigEndian : Nat → Nat → List Byte
  | 0, _ => []
  | w + 1, v => bigEndian w (v / 256) ++ [byte v]

/-- Value of a byte string read as a big-endian number. -/
def bigEndianValue (bs : List Byte) : Nat :=
  bs.foldl (fun acc b => acc * 256 + b.val) 0

/-- First `k` digests of the stream `H64(s || BE32(c)) || H64(s || BE32(c+1)) || ...`, the
counter being taken modulo `2^32`. -/
def digestStream (H : WideHash) (s : List Byte) (c : Nat) : Nat → List Byte
  | 0 => []
  | k + 1 => digestStream H s c k ++ H.sum (s ++ bigEndian 4 ((c + k) % 2 ^ 32))

/-- Drawing a single byte: refill the digest buffer if it is empty, then take its head. -/
def drawByte (H : WideHash) (g : DigestRandomGenerator) : List Byte × DigestRandomGenerator :=
  let g1 := refill H g
  (g1.digest.take 1, { g1 with digest := g1.digest.drop 1 })

/-- Drawing `n` bytes one at a time. -/
def drawBytes (H : WideHash) : Nat → DigestRandomGenerator → List Byte × DigestRandomGenerator
  | 0, g => ([], g)
  | n + 1, g =>
    let r := drawByte H g
    let r1 := drawBytes H n r.2
    (r.1 ++ r1.1, r1.2)

/-- Calling `Next` `n` times in a row on one keychain: the keypairs returned, in order, and
the keychain and random source afterwards. -/
def nextCalls (H : WideHash) (N : NarrowHash) (W : WotsPrimitive) :
    Nat → Keychain → RandSource → Option (List Keypair × Keychain × RandSource)
  | 0, kc, rnd => some ([], kc, rnd)
  | n + 1, kc, rnd =>
    match Keychain.Next H N W kc rnd with
    | none => none
    | some r =>
      match nextCalls H N W n r.keychain r.rnd with
      | none => none
      | some (kps, kc1, rnd1) => some (r.keypair :: kps, kc1, rnd1)

/-- Generator states that `NewDigestRandomGenerator()` followed by calls of `AddSeedMaterial`
and `NextBytes` can produce. -/
inductive Reachable (H : WideHash) : DigestRandomGenerator → Prop
  | fresh : Reachable H NewDigestRandomGenerator
  | addSeedMaterial (g : DigestRandomGenerator) (x : List Byte) :
      Reachable H g → Reachable H (AddSeedMaterial H g x)
  | nextBytes (g : DigestRandomGenerator) (n : Int) (out : List Byte)
      (g1 : DigestRandomGenerator) :
      Reachable H g → NextBytes H g n = some (out, g1) → Reachable H g1

/-- The buffer is what is left of the digest computed last: a suffix of
`H64(seed || BE32(count - 1))`, the subtraction being the one of `uint32`. -/
def BufferInv (H : WideHash) (g : DigestRandomGenerator) : Prop :=
  g.count < 2 ^ 32 ∧
  List.IsSuffix g.digest (H.sum (g.seed ++ bigEndian 4 ((g.count + 2 ^ 32 - 1) % 2 ^ 32)))

/-- The function `f` has no collision among the inputs that satisfy `S`. -/
def CollisionFreeOn (f : List Byte → List Byte) (S : List Byte → Prop) : Prop :=
  ∀ x y, S x → S y → f x = f y → x = y

/-! ## Concrete instances, for evaluating the definitions -/

/-- A wide hash for test runs: 64 bytes counting up from the length of the input plus the
sum of its bytes. -/
def sampleWide : WideHash where
  sum data := (List.range 64).map
    (fun j => byte (j + data.foldl (fun acc b => acc + b.val) data.length))
  size_eq := by simp

/-- A narrow hash for test runs, built like `sampleWide`. -/
def sampleNarrow : NarrowHash where
  sum256 data := (List.range 32).map
    (fun j => byte (j + data.foldl (fun acc b => acc + b.val) data.length))
  size_eq := by simp

/-- A stand-in for the signature primitive: it only pads or cuts its inputs to 2144 bytes. -/
def sampleWots : WotsPrimitive where
  wotsPkgen seed pubSeed addr := goCopy (makeBytes 2144) (seed ++ pubSeed ++ addr)
  wotsSign msg seed pubSeed addr := goCopy (makeBytes 2144) (seed ++ pubSeed ++ addr ++ msg)
  wotsPkFromSig sig _ _ _ := goCopy (makeBytes 2144) (sig.take 96)

/-- A random source whose every read fails. -/
def failingRand : RandSource := { outcome := fun _ => none, reads := 0 }

/-- A random source whose every read succeeds with 32 zero bytes. -/
def zeroRand : RandSource := { outcome := fun _ => some (makeBytes 32), reads := 0 }

/-- A generator in the middle of a digest: three bytes left in the buffer. -/
def sampleGen : DigestRandomGenerator := { seed := [1, 2, 3], digest := [7, 8, 9], count := 5 }

/-! ## Lemmas on encodings and slices -/

theorem stringLit_seed : stringLit "seed" = [115, 101, 101, 100] := by decide

theorem stringLit_publ : stringLit "publ" = [112, 117, 98, 108] := by decide

theorem stringLit_addr : stringLit "addr" = [97, 100, 100, 114] := by decide

theorem PutUint32_eq_bigEndian (v : Nat) : PutUint32 v = bigEndian 4 v := by
  simp [PutUint32, bigEndian, Nat.div_div_eq_div_mul]

theorem PutUint64_eq_bigEndian (v : Nat) : PutUint64 v = bigEndian 8 v := by
  simp [PutUint64, bigEndian, Nat.div_div_eq_div_mul]

theorem bigEndian_length (w v : Nat) : (bigEndian w v).length = w := by
  induction w generalizing v with
  | zero => rfl
  | succ w ih => simp [bigEndian, ih]

theorem bigEndianValue_append_singleton (bs : List Byte) (b : Byte) :
    bigEndianValue (bs ++ [b]) = bigEndianValue bs * 256 + b.val := by
  simp [bigEndianValue, List.foldl_append]

theorem bigEndianValue_bigEndian (w v : Nat) :
    bigEndianValue (bigEndian w v) = v % 256 ^ w := by
  induction w generalizing v with
  | zero => simp [bigEndian, bigEndianValue, Nat.mod_one]
  | succ w ih =>
    rw [bigEndian, bigEndianValue_append_singleton, ih]
    simp only [byte]
    rw [pow_succ, Nat.mul_comm (256 ^ w) 256, Nat.mod_mul]
    omega

theorem bigEndian_mod (w v : Nat) : bigEndian w (v % 256 ^ w) = bigEndian w v := by
  induction w generalizing v with
  | zero => rfl
  | succ w ih =>
    have h1 : v % 256 ^ (w + 1) / 256 = (v / 256) % 256 ^ w := by
      rw [pow_succ, Nat.mul_comm, Nat.mod_mul_right_div_self]
    have h2 : byte (v % 256 ^ (w + 1)) = byte v := by
      apply Fin.ext
      simp only [byte]
      rw [pow_succ, Nat.mul_comm]
      exact Nat.mod_mul_right_mod v 256 (256 ^ w)
    rw [bigEndian, bigEndian, h1, ih, h2]

theorem goCopy_full (dst src : List Byte) (h : dst.length = src.length) :
    goCopy dst src = src := by
  simp [goCopy, h]

theorem goCopy_length (dst src : List Byte) : (goCopy dst src).length = dst.length := by
  simp [goCopy]
  omega

theorem goAppend_bytes (s : Slice) (xs : List Byte) :
    (goAppend s xs).1.bytes = s.bytes ++ xs := by
  unfold goAppend
  split
  · rename_i h
    simp only [Slice.cap] at h
    simp only [Slice.bytes]
    rw [List.append_assoc, List.take_append_eq_append_take]
    have h1 : (List.take s.len s.arr).length = s.len := by
      rw [List.length_take]; omega
    simp [h1]
  · simp only [Slice.bytes]
    rw [List.take_of_length_le]
    simp

theorem goAppend_backing_full (s : Slice) (xs : List Byte) (h : s.cap < s.len + xs.length) :
    (goAppend s xs).2 = s.arr := by
  unfold goAppend
  rw [if_neg (by omega)]

/-! ## Lemmas on the digest stream generator -/

theorem refill_digest_pos (H : WideHash) (g : DigestRandomGenerator) :
    0 < (refill H g).digest.length := by
  unfold refill
  split
  · simp [generateNextDigest, H.size_eq]
  · omega

theorem refill_of_pos (H : WideHash) (g : DigestRandomGenerator) (h : 0 < g.digest.length) :
    refill H g = g := by
  unfold refill
  rw [if_neg (by omega)]

theorem refill_seed (H : WideHash) (g : DigestRandomGenerator) : (refill H g).seed = g.seed := by
  unfold refill
  split <;> simp [generateNextDigest]

theorem drawBytes_add (H : WideHash) (a b : Nat) (g : DigestRandomGenerator) :
    drawBytes H (a + b) g =
      ((drawBytes H a g).1 ++ (drawBytes H b (drawBytes H a g).2).1,
        (drawBytes H b (drawBytes H a g).2).2) := by
  induction a generalizing g with
  | zero => simp [drawBytes]
  | succ a ih =>
    rw [Nat.add_right_comm]
    simp only [drawBytes]
    rw [ih]
    simp

/-- Taking `k` bytes that are all in the buffer is one slice operation. -/
theorem drawBytes_chunk (H : WideHash) (k : Nat) (g : DigestRandomGenerator)
    (hk : k ≤ g.digest.length) :
    drawBytes H k g = (g.digest.take k, { g with digest := g.digest.drop k }) := by
  induction k generalizing g with
  | zero => simp [drawBytes]
  | succ k ih =>
    have hg : refill H g = g := refill_of_pos H g (by omega)
    simp only [drawBytes, drawByte, hg]
    rw [ih _ (by simp; omega)]
    cases hd : g.digest with
    | nil => simp [hd] at hk
    | cons x xs => simp

theorem drawBytes_refill (H : WideHash) (k : Nat) (g : DigestRandomGenerator) (hk : 0 < k) :
    drawBytes H k (refill H g) = drawBytes H k g := by
  cases k with
  | zero => omega
  | succ k =>
    simp only [drawBytes, drawByte]
    rw [refill_of_pos H (refill H g) (refill_digest_pos H g)]

theorem copyLen_le_left (r d : Nat) : copyLen r d ≤ r := by
  unfold copyLen; split <;> omega

theorem copyLen_le_right (r d : Nat) : copyLen r d ≤ d := by
  unfold copyLen; split <;> omega

theorem copyLen_pos (r d : Nat) (hr : 0 < r) (hd : 0 < d) : 0 < copyLen r d := by
  unfold copyLen; split <;> omega

theorem take_append_goCopy (pre rest src : List Byte) (h : src.length ≤ rest.length) :
    List.take (pre.length + src.length) (pre ++ goCopy rest src) = pre ++ src := by
  have h1 : goCopy rest src = src ++ List.drop src.length rest := by
    simp [goCopy, List.take_of_length_le h]
  rw [h1, ← List.append_assoc]
  have h2 : pre.length + src.length = (pre ++ src).length := by simp
  rw [h2, List.take_left']
  rfl

/-- The loop of `NextBytes` fills `result[pos:]` with the bytes that drawing one at a time
gives, and ends in the same generator state. -/
theorem nextBytesLoop_eq (H : WideHash) (length : Nat) :
    ∀ (m : Nat) (g : DigestRandomGenerator) (result : List Byte) (pos : Nat),
      length - pos = m → pos ≤ length → result.length = length →
      nextBytesLoop H length g result pos =
        (result.take pos ++ (drawBytes H (length - pos) g).1,
          (drawBytes H (length - pos) g).2) := by
  intro m
  induction m using Nat.strong_induction_on with
  | _ m ih =>
    intro g result pos hm hpos hlen
    rw [nextBytesLoop]
    by_cases hlt : pos < length
    · rw [if_pos hlt]
      have hd := refill_digest_pos H g
      have hk1 := copyLen_le_left (length - pos) (refill H g).digest.length
      have hk2 := copyLen_le_right (length - pos) (refill H g).digest.length
      have hk3 := copyLen_pos (length - pos) (refill H g).digest.length (by omega) hd
      generalize hn : copyLen (length - pos) (refill H g).digest.length = n at hk1 hk2 hk3
      simp only
      rw [hn]
      have hlen1 : (List.take pos result ++
          goCopy (List.drop pos result) (List.take n (refill H g).digest)).length = length := by
        simp [goCopy_length]
        omega
      rw [ih (length - (pos + n)) (by omega) _ _ (pos + n) rfl (by omega) hlen1]
      have hsplit : length - pos = n + (length - (pos + n)) := by omega
      have hchunk := drawBytes_chunk H n (refill H g) hk2
      rw [hsplit, drawBytes_add, ← drawBytes_refill H n g hk3, hchunk]
      have hsplit' : n + (length - (pos + n)) - n = length - (pos + n) := by omega
      have htake : List.take (pos + n) (List.take pos result ++
          goCopy (List.drop pos result) (List.take n (refill H g).digest))
          = List.take pos result ++ List.take n (refill H g).digest := by
        have hp : (List.take pos result).length = pos := by
          rw [List.length_take]; omega
        have hq : (List.take n (refill H g).digest).length = n := by
          rw [List.length_take]; omega
        have := take_append_goCopy (List.take pos result) (List.drop pos result)
          (List.take n (refill H g).digest) (by rw [hq, List.length_drop]; omega)
        rwa [hp, hq] at this
      simp [htake]
    · rw [if_neg hlt]
      have : length - pos = 0 := by omega
      rw [this]
      simp only [drawBytes, List.append_nil]
      rw [List.take_of_length_le (by omega)]

theorem small_le_maxAlloc (n : Int) (h : n ≤ 2 ^ 48) : n ≤ (maxAlloc : Int) := by
  have e : (maxAlloc : Int) = 2 ^ 48 := by simp [maxAlloc]
  rw [e]
  exact h

theorem makeSlice_of_le (n : Int) (hn : 0 ≤ n) (hmax : n ≤ (maxAlloc : Int)) :
    makeSlice n = some (makeBytes n.toNat) := by
  unfold makeSlice
  rw [if_neg (by omega)]

theorem makeSlice_panic (n : Int) (h : n < 0 ∨ (maxAlloc : Int) < n) : makeSlice n = none := by
  unfold makeSlice
  rw [if_pos h]

theorem maxAlloc_lt (n : Int) (h : 2 ^ 48 < n) : (maxAlloc : Int) < n := by
  have e : (maxAlloc : Int) = 2 ^ 48 := by simp [maxAlloc]
  rw [e]
  exact h

/-- For a length that `make` refuses, `NextBytes` panics. -/
theorem NextBytes_panic (H : WideHash) (g : DigestRandomGenerator) (n : Int)
    (h : n < 0 ∨ (maxAlloc : Int) < n) : NextBytes H g n = none := by
  unfold NextBytes
  rw [makeSlice_panic n h]

/-- For a length that `make` accepts, `NextBytes` does not panic and returns what drawing
the bytes one at a time gives. -/
theorem NextBytes_eq_drawBytes (H : WideHash) (g : DigestRandomGenerator) (n : Int)
    (hn : 0 ≤ n) (hmax : n ≤ (maxAlloc : Int)) :
    NextBytes H g n = some (drawBytes H n.toNat g) := by
  unfold NextBytes
  rw [makeSlice_of_le n hn hmax]
  simp only
  rw [nextBytesLoop_eq H n.toNat n.toNat g _ 0 rfl (Nat.zero_le _) (by simp [makeBytes])]
  simp

theorem drawBytes_length (H : WideHash) (n : Nat) (g : DigestRandomGenerator) :
    (drawBytes H n g).1.length = n := by
  induction n generalizing g with
  | zero => rfl
  | succ n ih =>
    have hd := refill_digest_pos H g
    simp only [drawBytes, drawByte, List.length_append, ih, List.length_take]
    omega

theorem drawBytes_seed (H : WideHash) (n : Nat) (g : DigestRandomGenerator) :
    (drawBytes H n g).2.seed = g.seed := by
  induction n generalizing g with
  | zero => rfl
  | succ n ih =>
    simp only [drawBytes, drawByte, ih, refill_seed]

theorem digestStream_length (H : WideHash) (s : List Byte) (c k : Nat) :
    (digestStream H s c k).length = 64 * k := by
  induction k with
  | zero => rfl
  | succ k ih =>
    simp only [digestStream, List.length_append, ih, H.size_eq]
    omega

/-- The stream seen from its first digest. -/
theorem digestStream_succ (H : WideHash) (s : List Byte) (c k : Nat) :
    digestStream H s c (k + 1) =
      H.sum (s ++ bigEndian 4 (c % 2 ^ 32)) ++ digestStream H s (c + 1) k := by
  induction k with
  | zero => simp [digestStream]
  | succ k ih =>
    rw [digestStream, ih, digestStream, List.append_assoc]
    have : c + 1 + k = c + (k + 1) := by omega
    rw [this]

theorem digestStream_congr (H : WideHash) (s : List Byte) (c c1 k : Nat)
    (h : c % 2 ^ 32 = c1 % 2 ^ 32) : digestStream H s c k = digestStream H s c1 k := by
  induction k with
  | zero => rfl
  | succ k ih =>
    have : (c + k) % 2 ^ 32 = (c1 + k) % 2 ^ 32 := by omega
    rw [digestStream, digestStream, ih, this]

theorem bigEndian_four_mod (v : Nat) : bigEndian 4 (v % 2 ^ 32) = bigEndian 4 v :=
  bigEndian_mod 4 v

/-- The bytes drawn are a prefix of the buffer followed by the digests still to come. -/
theorem drawBytes_stream (H : WideHash) (n : Nat) :
    ∀ (g : DigestRandomGenerator) (k : Nat), n ≤ g.digest.length + 64 * k →
      (drawBytes H n g).1 = (g.digest ++ digestStream H g.seed g.count k).take n := by
  induction n with
  | zero => intro g k _; simp [drawBytes]
  | succ n ih =>
    intro g k hk
    obtain ⟨s, d, c⟩ := g
    cases d with
    | cons x xs =>
      have hg : refill H ⟨s, x :: xs, c⟩ = ⟨s, x :: xs, c⟩ := refill_of_pos H _ (by simp)
      simp only [drawBytes, drawByte, hg, List.drop_succ_cons, List.drop_zero]
      rw [ih ⟨s, xs, c⟩ k (by simp at hk ⊢; omega)]
      simp
    | nil =>
      cases k with
      | zero => simp at hk
      | succ k =>
        have hlen := H.size_eq (s ++ PutUint32 c)
        have hg : refill H ⟨s, [], c⟩ =
            ⟨s, H.sum (s ++ PutUint32 c), (c + 1) % 2 ^ 32⟩ := by
          simp [refill, generateNextDigest]
        simp only [drawBytes, drawByte, hg]
        rw [ih ⟨s, _, (c + 1) % 2 ^ 32⟩ k (by simp [hlen] at hk ⊢; omega)]
        simp only [List.nil_append]
        rw [digestStream_succ, bigEndian_four_mod, ← PutUint32_eq_bigEndian,
          digestStream_congr H s ((c + 1) % 2 ^ 32) (c + 1) k (by omega)]
        cases hD : H.sum (s ++ PutUint32 c) with
        | nil => simp [hD] at hlen
        | cons y ys => simp

theorem AddSeedMaterial_eq (H : WideHash) (g : DigestRandomGenerator) (x : List Byte) :
    AddSeedMaterial H g x =
      ⟨g.seed ++ x, H.sum (g.seed ++ x ++ bigEndian 4 g.count), (g.count + 1) % 2 ^ 32⟩ := by
  simp [AddSeedMaterial, generateNextDigest, PutUint32_eq_bigEndian]

theorem AddSeedMaterial_fresh (H : WideHash) (x : List Byte) :
    AddSeedMaterial H NewDigestRandomGenerator x = ⟨x, H.sum (x ++ bigEndian 4 0), 1⟩ := by
  simp [AddSeedMaterial_eq, NewDigestRandomGenerator, makeBytes]

/-- Two draws in a row against one draw of the total length. -/
theorem NextBytes_add (H : WideHash) (g : DigestRandomGenerator) (a b : Int)
    (ha : 0 ≤ a) (hb : 0 ≤ b) (hmax : a + b ≤ (maxAlloc : Int)) :
    ∃ xs g1 ys g2, NextBytes H g a = some (xs, g1) ∧ NextBytes H g1 b = some (ys, g2) ∧
      NextBytes H g (a + b) = some (xs ++ ys, g2) := by
  refine ⟨(drawBytes H a.toNat g).1, (drawBytes H a.toNat g).2,
    (drawBytes H b.toNat (drawBytes H a.toNat g).2).1,
    (drawBytes H b.toNat (drawBytes H a.toNat g).2).2, ?_, ?_, ?_⟩
  · rw [NextBytes_eq_drawBytes H g a ha (by omega)]
  · rw [NextBytes_eq_drawBytes H _ b hb (by omega)]
  · rw [NextBytes_eq_drawBytes H g (a + b) (by omega) hmax]
    have : (a + b).toNat = a.toNat + b.toNat := by omega
    rw [this, drawBytes_add]

/-- Value of `DeriveSeed` in closed form. -/
theorem DeriveSeed_eq (H : WideHash) (ms : Slice) (i : Nat) :
    DeriveSeed H ms i = some
      { secret := (H.sum (H.sum (ms.bytes ++ bigEndian 8 i) ++ bigEndian 4 0)).take 32,
        prng := ⟨H.sum (ms.bytes ++ bigEndian 8 i),
          (H.sum (H.sum (ms.bytes ++ bigEndian 8 i) ++ bigEndian 4 0)).drop 32, 1⟩,
        backing := (goAppend ms (bigEndian 8 i)).2 } := by
  have hid : goCopy (makeBytes 8) (PutUint64 i) = bigEndian 8 i := by
    rw [goCopy_full _ _ (by simp [makeBytes, PutUint64]), PutUint64_eq_bigEndian]
  unfold DeriveSeed
  simp only [hid, goAppend_bytes, AddSeedMaterial_fresh]
  rw [NextBytes_eq_drawBytes H _ 32 (by decide) (small_le_maxAlloc 32 (by decide))]
  have h32 : (32 : Int).toNat = 32 := rfl
  rw [h32, drawBytes_chunk H 32 _ (by simp [H.size_eq])]

theorem secret_length (H : WideHash) (x : List Byte) : ((H.sum x).take 32).length = 32 := by
  rw [List.length_take, H.size_eq]
  rfl

/-- Value of `Next` in closed form. -/
theorem Next_eq (H : WideHash) (N : NarrowHash) (W : WotsPrimitive) (kc : Keychain)
    (rnd : RandSource) :
    Keychain.Next H N W kc rnd = some
      { keypair := keygenFromSeed N W
          ((H.sum (H.sum (kc.Seed ++ bigEndian 8 kc.Index) ++ bigEndian 4 0)).take 32),
        keychain := { Seed := kc.Seed, Index := (kc.Index + 1) % 2 ^ 64 },
        rnd := rnd } := by
  have hb : (goAppend (Slice.ofArray kc.Seed) (bigEndian 8 kc.Index)).2 = kc.Seed :=
    goAppend_backing_full _ _ (by simp [Slice.ofArray, Slice.cap, bigEndian_length])
  have hs : (Slice.ofArray kc.Seed).bytes = kc.Seed := by simp [Slice.ofArray, Slice.bytes]
  unfold Keychain.Next
  rw [DeriveSeed_eq]
  simp only [hb, hs]
  rw [goCopy_full _ _ (by rw [secret_length]; simp [makeBytes])]
  simp [Keygen]

theorem bigEndian_eight_mod (v : Nat) : bigEndian 8 (v % 2 ^ 64) = bigEndian 8 v :=
  bigEndian_mod 8 v

/-- Value of `n` calls of `Next` in closed form. -/
theorem nextCalls_eq (H : WideHash) (N : NarrowHash) (W : WotsPrimitive) (n : Nat) :
    ∀ (kc : Keychain) (rnd : RandSource), kc.Index < 2 ^ 64 →
      nextCalls H N W n kc rnd = some
        ((List.range n).map (fun j => keygenFromSeed N W
            ((H.sum (H.sum (kc.Seed ++ bigEndian 8 ((kc.Index + j) % 2 ^ 64))
              ++ bigEndian 4 0)).take 32)),
          { Seed := kc.Seed, Index := (kc.Index + n) % 2 ^ 64 }, rnd) := by
  induction n with
  | zero =>
    intro kc rnd h
    obtain ⟨seed, idx⟩ := kc
    simp only [nextCalls, List.range_zero, List.map_nil, Nat.add_zero]
    rw [Nat.mod_eq_of_lt h]
  | succ n ih =>
    intro kc rnd h
    have h1 : (kc.Index + 1) % 2 ^ 64 < 2 ^ 64 := Nat.mod_lt _ (by decide)
    have h2 : ((kc.Index + 1) % 2 ^ 64 + n) % 2 ^ 64 = (kc.Index + (n + 1)) % 2 ^ 64 := by
      omega
    have h3 : ∀ j, ((kc.Index + 1) % 2 ^ 64 + j) % 2 ^ 64 = (kc.Index + (j + 1)) % 2 ^ 64 := by
      intro j; omega
    simp only [nextCalls, Next_eq]
    rw [ih _ rnd h1]
    simp only [h2, h3, List.range_succ_eq_map, List.map_cons, List.map_map, Nat.add_zero,
      Nat.mod_eq_of_lt h]
    rfl

/-! ## Seed derivation and keychain -/

/-- C1: for every byte slice `masterSeed` and every index `i`, `DeriveSeed` returns, and its
secret has exactly 32 bytes, the first 32 of `H64(H64(masterSeed || BE64(i)) || BE32(0))`;
`BE64(i)` is the 8-byte big-endian encoding of `i` (it reads back as `i` on 64 bits) and
`BE32(0)` is four zero bytes. -/
theorem DeriveSeed_secret (H : WideHash) (masterSeed : Slice) (i : Nat) :
    ∃ d, DeriveSeed H masterSeed i = some d ∧ d.secret.length = 32 ∧
      d.secret = (H.sum (H.sum (masterSeed.bytes ++ bigEndian 8 i) ++ bigEndian 4 0)).take 32 ∧
      (bigEndian 8 i).length = 8 ∧ bigEndianValue (bigEndian 8 i) = i % 2 ^ 64 ∧
      bigEndian 4 0 = [0, 0, 0, 0] := by
  refine ⟨_, DeriveSeed_eq H masterSeed i, secret_length H _, rfl, bigEndian_length 8 i,
    bigEndianValue_bigEndian 8 i, by decide⟩

/-- C2: for every keychain state, `Next` returns the keypair that `Keygen` produces for the
32-byte secret of `DeriveSeed(Seed, Index)`: the private key is that whole secret, the
components are `componentsGenerator` of it and the public key is `wotsPkgen` of them. -/
theorem Next_keypair (H : WideHash) (N : NarrowHash) (W : WotsPrimitive) (kc : Keychain)
    (rnd : RandSource) :
    ∃ d r, DeriveSeed H (Slice.ofArray kc.Seed) kc.Index = some d ∧
      Keychain.Next H N W kc rnd = some r ∧
      d.secret.length = 32 ∧
      r.keypair = (Keygen N W [d.secret] rnd).1.val ∧
      r.keypair = keygenFromSeed N W d.secret ∧
      r.keypair.PrivateKey = d.secret ∧
      r.keypair.Components = componentsGenerator N d.secret ∧
      r.keypair.PublicKey = W.wotsPkgen (componentsGenerator N d.secret).PrivateSeed
        (componentsGenerator N d.secret).PublicSeed (componentsGenerator N d.secret).AddrSeed := by
  have hs : (Slice.ofArray kc.Seed).bytes = kc.Seed := by simp [Slice.ofArray, Slice.bytes]
  refine ⟨_, _, DeriveSeed_eq H _ kc.Index, Next_eq H N W kc rnd, secret_length H _, ?_, ?_,
    ?_, ?_, ?_⟩ <;> simp [hs, Keygen, keygenFromSeed]

/-- C3: one call of `Next` leaves the `Seed` array as it was, sets `Index` to `Index + 1`
modulo `2^64`, and touches nothing else (the random source is not read). -/
theorem Next_frame (H : WideHash) (N : NarrowHash) (W : WotsPrimitive) (kc : Keychain)
    (rnd : RandSource) :
    ∃ r, Keychain.Next H N W kc rnd = some r ∧ r.keychain.Seed = kc.Seed ∧
      r.keychain.Index = (kc.Index + 1) % 2 ^ 64 ∧
      r.rnd.reads = rnd.reads ∧ r.rnd.outcome = rnd.outcome :=
  ⟨_, Next_eq H N W kc rnd, rfl, rfl, rfl, rfl⟩

/-- C4: a keychain made by `NewKeychain(s)` starts with `Seed = s` and `Index = 0`; for
`1 ≤ n ≤ k < 2^64` its first `n` calls of `Next` return, and call number `j + 1` returns
`keygenFromSeed(DeriveSeed(s, j))`, the index after the `n`-th call is `n`, and a second
keychain built from the same seed (whatever the random source) returns the same keypairs. -/
theorem Keychain_sequence (H : WideHash) (N : NarrowHash) (W : WotsPrimitive) (s : List Byte)
    (k : Nat) (rnd : RandSource) (hk1 : 1 ≤ k) (hk : k < 2 ^ 64) :
    (NewKeychain [s] rnd).1.val = { Seed := s, Index := 0 } ∧
    (NewKeychain [s] rnd).1.err = none ∧
    ∀ n, 1 ≤ n → n ≤ k →
      ∃ kps kc1 rnd1,
        nextCalls H N W n (NewKeychain [s] rnd).1.val (NewKeychain [s] rnd).2
          = some (kps, kc1, rnd1) ∧
        kps.length = n ∧ kc1.Index = n ∧ kc1.Seed = s ∧
        (∀ j, j < n → kps[j]? =
          (DeriveSeed H (Slice.ofArray s) j).map (fun d => keygenFromSeed N W d.secret)) ∧
        (∀ rnd2, ∃ kc2 rnd3,
          nextCalls H N W n (NewKeychain [s] rnd2).1.val (NewKeychain [s] rnd2).2
            = some (kps, kc2, rnd3)) := by
  refine ⟨rfl, rfl, ?_⟩
  intro n _ hn
  have hs : (Slice.ofArray s).bytes = s := by simp [Slice.ofArray, Slice.bytes]
  have hcalls : ∀ r : RandSource, nextCalls H N W n (NewKeychain [s] r).1.val
      (NewKeychain [s] r).2 = _ :=
    fun r => nextCalls_eq H N W n ⟨s, 0⟩ r (Nat.pos_of_ne_zero (by decide))
  refine ⟨_, _, _, hcalls rnd, ?_, ?_, rfl, ?_, ?_⟩
  · simp
  · simp only [Nat.zero_add]
    exact Nat.mod_eq_of_lt (by omega)
  · intro j hj
    have hj2 : j % 18446744073709551616 = j := Nat.mod_eq_of_lt (by omega)
    simp [DeriveSeed_eq, hs, hj, hj2]
  · intro rnd2
    exact ⟨_, _, hcalls rnd2⟩

/-- `Keychain_sequence` at the all-zero seed and `k = 3`. -/
theorem Keychain_sequence_witness :
    (1 ≤ 3 ∧ 3 < 2 ^ 64) ∧
    (NewKeychain [makeBytes 32] failingRand).1.val = { Seed := makeBytes 32, Index := 0 } ∧
    (NewKeychain [makeBytes 32] failingRand).1.err = none ∧
    ∀ n, 1 ≤ n → n ≤ 3 →
      ∃ kps kc1 rnd1,
        nextCalls sampleWide sampleNarrow sampleWots n
            (NewKeychain [makeBytes 32] failingRand).1.val
            (NewKeychain [makeBytes 32] failingRand).2
          = some (kps, kc1, rnd1) ∧
        kps.length = n ∧ kc1.Index = n ∧ kc1.Seed = makeBytes 32 ∧
        (∀ j, j < n → kps[j]? =
          (DeriveSeed sampleWide (Slice.ofArray (makeBytes 32)) j).map
            (fun d => keygenFromSeed sampleNarrow sampleWots d.secret)) ∧
        (∀ rnd2, ∃ kc2 rnd3,
          nextCalls sampleWide sampleNarrow sampleWots n
              (NewKeychain [makeBytes 32] rnd2).1.val (NewKeychain [makeBytes 32] rnd2).2
            = some (kps, kc2, rnd3)) :=
  ⟨⟨by decide, by decide⟩,
    Keychain_sequence sampleWide sampleNarrow sampleWots (makeBytes 32) 3 failingRand
      (by decide) (by decide)⟩

/-- C5, as stated, fails: at `Index = 2^64 - 1` the increment of `Next` wraps to `0`, so the
index after the call is not greater than the index before it. -/
theorem Next_index_wraps :
    ∃ r, Keychain.Next sampleWide sampleNarrow sampleWots ⟨makeBytes 32, 2 ^ 64 - 1⟩ failingRand
        = some r ∧
      r.keychain.Index = 0 ∧ ¬ (2 ^ 64 - 1 < r.keychain.Index) :=
  ⟨_, Next_eq _ _ _ _ _, by decide, by decide⟩

/-- C5, amended: for every keychain state with `Index < 2^64 - 1` the index after `Next` is
`Index + 1`, strictly greater than before; and as long as `b` calls do not take the index
to `2^64`, the index after `a < b` calls is smaller than the index after `b` calls, so the
calls made up to there all use different indices. -/
theorem Next_index_increases (H : WideHash) (N : NarrowHash) (W : WotsPrimitive)
    (kc : Keychain) (rnd : RandSource) (h : kc.Index < 2 ^ 64 - 1) :
    (∃ r, Keychain.Next H N W kc rnd = some r ∧ r.keychain.Index = kc.Index + 1 ∧
      kc.Index < r.keychain.Index) ∧
    (∀ a b, a < b → kc.Index + b < 2 ^ 64 →
      ∃ ra rb, nextCalls H N W a kc rnd = some ra ∧ nextCalls H N W b kc rnd = some rb ∧
        ra.2.1.Index = kc.Index + a ∧ rb.2.1.Index = kc.Index + b ∧
        ra.2.1.Index < rb.2.1.Index) := by
  constructor
  · refine ⟨_, Next_eq H N W kc rnd, ?_, ?_⟩
    · exact Nat.mod_eq_of_lt (by omega)
    · show kc.Index < (kc.Index + 1) % 2 ^ 64
      rw [Nat.mod_eq_of_lt (by omega)]
      omega
  · intro a b hab hb
    refine ⟨_, _, nextCalls_eq H N W a kc rnd (by omega), nextCalls_eq H N W b kc rnd (by omega),
      ?_, ?_, ?_⟩
    · exact Nat.mod_eq_of_lt (by omega)
    · exact Nat.mod_eq_of_lt (by omega)
    · show (kc.Index + a) % 2 ^ 64 < (kc.Index + b) % 2 ^ 64
      rw [Nat.mod_eq_of_lt (by omega), Nat.mod_eq_of_lt (by omega)]
      omega

/-- `Next_index_increases` at the all-zero seed and `Index = 0`. -/
theorem Next_index_increases_witness :
    (0 < 2 ^ 64 - 1) ∧
    (∃ r, Keychain.Next sampleWide sampleNarrow sampleWots ⟨makeBytes 32, 0⟩ failingRand
        = some r ∧ r.keychain.Index = 0 + 1 ∧ 0 < r.keychain.Index) ∧
    (∀ a b, a < b → 0 + b < 2 ^ 64 →
      ∃ ra rb,
        nextCalls sampleWide sampleNarrow sampleWots a ⟨makeBytes 32, 0⟩ failingRand = some ra ∧
        nextCalls sampleWide sampleNarrow sampleWots b ⟨makeBytes 32, 0⟩ failingRand = some rb ∧
        ra.2.1.Index = 0 + a ∧ rb.2.1.Index = 0 + b ∧ ra.2.1.Index < rb.2.1.Index) :=
  ⟨by decide,
    Next_index_increases sampleWide sampleNarrow sampleWots ⟨makeBytes 32, 0⟩ failingRand
      (by decide)⟩

/-! ## Digest stream generator -/

/-- C6, as stated, fails: for `a = 2^63 - 1` (the largest `int`) and `b = 0` the call
`NextBytes(a + b)` panics in `make` and returns no bytes at all, and so does `NextBytes(a)`,
while `NextBytes(b)` returns. -/
theorem NextBytes_call_boundaries_limit :
    NextBytes sampleWide sampleGen ((2 ^ 63 - 1) + 0) = none ∧
    NextBytes sampleWide sampleGen (2 ^ 63 - 1) = none ∧
    NextBytes sampleWide sampleGen 0 = some ([], sampleGen) ∧
    ¬ ∃ xs g1 ys g2, NextBytes sampleWide sampleGen (2 ^ 63 - 1) = some (xs, g1) ∧
      NextBytes sampleWide g1 0 = some (ys, g2) ∧
      NextBytes sampleWide sampleGen ((2 ^ 63 - 1) + 0) = some (xs ++ ys, g2) := by
  have h1 : NextBytes sampleWide sampleGen (2 ^ 63 - 1) = none :=
    NextBytes_panic _ _ _ (Or.inr (maxAlloc_lt _ (by decide)))
  refine ⟨NextBytes_panic _ _ _ (Or.inr (maxAlloc_lt _ (by decide))), h1, ?_, ?_⟩
  · rw [NextBytes_eq_drawBytes _ _ 0 (by decide) (small_le_maxAlloc 0 (by decide))]
    rfl
  · rintro ⟨xs, g1, ys, g2, h, _⟩
    rw [h1] at h
    cases h

/-- C6, amended: call boundaries do not change the output as long as `make` accepts the
total length: for every generator state `g` and lengths `a, b ≥ 0` with
`a + b ≤ maxAlloc`, `NextBytes(a + b)` on `g` returns the bytes of `NextBytes(a)` followed
by those of `NextBytes(b)`, and both runs end in the same generator state; in particular
one draw of 64 bytes from a freshly seeded generator equals two draws of 32 bytes. -/
theorem NextBytes_call_boundaries (H : WideHash) (g : DigestRandomGenerator) (a b : Int)
    (ha : 0 ≤ a) (hb : 0 ≤ b) (hmax : a + b ≤ (maxAlloc : Int)) :
    (∃ xs g1 ys g2, NextBytes H g a = some (xs, g1) ∧ NextBytes H g1 b = some (ys, g2) ∧
      NextBytes H g (a + b) = some (xs ++ ys, g2)) ∧
    (∀ seed, ∃ xs g1 ys g2,
      NextBytes H (AddSeedMaterial H NewDigestRandomGenerator seed) 32 = some (xs, g1) ∧
      NextBytes H g1 32 = some (ys, g2) ∧
      NextBytes H (AddSeedMaterial H NewDigestRandomGenerator seed) 64 = some (xs ++ ys, g2)) :=
  ⟨NextBytes_add H g a b ha hb hmax,
    fun seed => NextBytes_add H (AddSeedMaterial H NewDigestRandomGenerator seed) 32 32
      (by decide) (by decide) (small_le_maxAlloc _ (by decide))⟩

/-- `NextBytes_call_boundaries` on `sampleGen` with `a = 2` and `b = 70`. -/
theorem NextBytes_call_boundaries_witness :
    ((0 : Int) ≤ 2 ∧ (0 : Int) ≤ 70 ∧ (2 : Int) + 70 ≤ (maxAlloc : Int)) ∧
    (∃ xs g1 ys g2, NextBytes sampleWide sampleGen 2 = some (xs, g1) ∧
      NextBytes sampleWide g1 70 = some (ys, g2) ∧
      NextBytes sampleWide sampleGen (2 + 70) = some (xs ++ ys, g2)) ∧
    (∀ seed, ∃ xs g1 ys g2,
      NextBytes sampleWide (AddSeedMaterial sampleWide NewDigestRandomGenerator seed) 32
        = some (xs, g1) ∧
      NextBytes sampleWide g1 32 = some (ys, g2) ∧
      NextBytes sampleWide (AddSeedMaterial sampleWide NewDigestRandomGenerator seed) 64
        = some (xs ++ ys, g2)) :=
  ⟨⟨by decide, by decide, small_le_maxAlloc _ (by decide)⟩,
    NextBytes_call_boundaries sampleWide sampleGen 2 70 (by decide) (by decide)
      (small_le_maxAlloc _ (by decide))⟩

/-- C7, as stated, fails: for `n = 2^63 - 1` (the largest `int`) `NextBytes(n)` panics in
`make`, on `sampleGen` and on a freshly seeded generator alike, and returns no bytes. -/
theorem NextBytes_stream_prefix_limit :
    NextBytes sampleWide sampleGen (2 ^ 63 - 1) = none ∧
    NextBytes sampleWide (AddSeedMaterial sampleWide NewDigestRandomGenerator [4, 5])
      (2 ^ 63 - 1) = none ∧
    ¬ ∃ out g1, NextBytes sampleWide sampleGen (2 ^ 63 - 1) = some (out, g1) ∧
      out.length = ((2 : Int) ^ 63 - 1).toNat := by
  have h1 : NextBytes sampleWide sampleGen (2 ^ 63 - 1) = none :=
    NextBytes_panic _ _ _ (Or.inr (maxAlloc_lt _ (by decide)))
  refine ⟨h1, NextBytes_panic _ _ _ (Or.inr (maxAlloc_lt _ (by decide))), ?_⟩
  rintro ⟨out, g1, h, _⟩
  rw [h1] at h
  cases h

/-- C7, amended: for every generator state (seed `s`, buffer `b`, counter `c`) and every
`n` with `0 ≤ n ≤ maxAlloc`, `NextBytes(n)` returns, with exactly `n` bytes, the first `n`
bytes of `b || H64(s || BE32(c)) || H64(s || BE32(c+1)) || ...` (counter modulo `2^32`),
whatever number `k` of digests that suffices is written out; on a fresh generator seeded
once with `s` it is the `n`-byte prefix of `H64(s || BE32(0)) || H64(s || BE32(1)) || ...`. -/
theorem NextBytes_stream_prefix (H : WideHash) (g : DigestRandomGenerator) (n : Int)
    (hn : 0 ≤ n) (hmax : n ≤ (maxAlloc : Int)) :
    (∃ out g1, NextBytes H g n = some (out, g1) ∧ out.length = n.toNat ∧
      ∀ k, n.toNat ≤ g.digest.length + 64 * k →
        out = (g.digest ++ digestStream H g.seed g.count k).take n.toNat) ∧
    (∀ s, ∃ out g1,
      NextBytes H (AddSeedMaterial H NewDigestRandomGenerator s) n = some (out, g1) ∧
      out.length = n.toNat ∧
      ∀ k, n.toNat ≤ 64 * k → out = (digestStream H s 0 k).take n.toNat) := by
  constructor
  · exact ⟨_, _, NextBytes_eq_drawBytes H g n hn hmax, drawBytes_length H _ g,
      fun k hk => drawBytes_stream H n.toNat g k hk⟩
  · intro s
    refine ⟨_, _, NextBytes_eq_drawBytes H _ n hn hmax, drawBytes_length H _ _, ?_⟩
    intro k hk
    rw [AddSeedMaterial_fresh]
    cases k with
    | zero =>
      have h0 : n.toNat = 0 := by omega
      simp [h0, drawBytes]
    | succ k =>
      rw [drawBytes_stream H n.toNat _ k (by simp [H.size_eq]; omega), digestStream_succ]
      rfl

/-- `NextBytes_stream_prefix` on `sampleGen` with `n = 70`. -/
theorem NextBytes_stream_prefix_witness :
    ((0 : Int) ≤ 70 ∧ (70 : Int) ≤ (maxAlloc : Int)) ∧
    (∃ out g1, NextBytes sampleWide sampleGen 70 = some (out, g1) ∧
      out.length = (70 : Int).toNat ∧
      ∀ k, (70 : Int).toNat ≤ sampleGen.digest.length + 64 * k →
        out = (sampleGen.digest ++ digestStream sampleWide sampleGen.seed sampleGen.count k).take
          (70 : Int).toNat) ∧
    (∀ s, ∃ out g1,
      NextBytes sampleWide (AddSeedMaterial sampleWide NewDigestRandomGenerator s) 70
        = some (out, g1) ∧
      out.length = (70 : Int).toNat ∧
      ∀ k, (70 : Int).toNat ≤ 64 * k → out = (digestStream sampleWide s 0 k).take
        (70 : Int).toNat) :=
  ⟨⟨by decide, small_le_maxAlloc _ (by decide)⟩,
    NextBytes_stream_prefix sampleWide sampleGen 70 (by decide)
      (small_le_maxAlloc _ (by decide))⟩

/-- C8: for every generator state (seed `s`, any buffer, counter `c`) and every `x`,
`AddSeedMaterial(x)` leaves seed `s || x`, a buffer that is the whole 64-byte digest
`H64(s || x || BE32(c))` whatever was buffered before, and counter `c + 1` modulo `2^32`;
`BE32(c)` is what `PutUint32` writes for the counter. -/
theorem AddSeedMaterial_state (H : WideHash) (g : DigestRandomGenerator) (x : List Byte) :
    (AddSeedMaterial H g x).seed = g.seed ++ x ∧
    (AddSeedMaterial H g x).digest = H.sum (g.seed ++ x ++ bigEndian 4 g.count) ∧
    (AddSeedMaterial H g x).digest.length = 64 ∧
    (AddSeedMaterial H g x).count = (g.count + 1) % 2 ^ 32 ∧
    (∀ d, AddSeedMaterial H { g with digest := d } x = AddSeedMaterial H g x) ∧
    bigEndian 4 g.count = PutUint32 g.count ∧
    bigEndianValue (bigEndian 4 g.count) = g.count % 2 ^ 32 := by
  refine ⟨?_, ?_, ?_, ?_, ?_, (PutUint32_eq_bigEndian _).symm, bigEndianValue_bigEndian 4 _⟩
  · rw [AddSeedMaterial_eq]
  · rw [AddSeedMaterial_eq]
  · rw [AddSeedMaterial_eq]; exact H.size_eq _
  · rw [AddSeedMaterial_eq]
  · intro d; rw [AddSeedMaterial_eq, AddSeedMaterial_eq]

/-! ## Component separation and keypair assembly -/

/-- C9: for every seed `s`, `componentsGenerator(s)` returns `H32(s || "seed")`,
`H32(s || "publ")` and `H32(s || "addr")`: each hash input is the bytes of `s` as they are,
followed by the four ASCII bytes of the tag, and each output has 32 bytes. -/
theorem componentsGenerator_spec (N : NarrowHash) (s : List Byte) :
    (componentsGenerator N s).PrivateSeed = N.sum256 (s ++ [115, 101, 101, 100]) ∧
    (componentsGenerator N s).PublicSeed = N.sum256 (s ++ [112, 117, 98, 108]) ∧
    (componentsGenerator N s).AddrSeed = N.sum256 (s ++ [97, 100, 100, 114]) ∧
    stringLit "seed" = [115, 101, 101, 100] ∧ stringLit "publ" = [112, 117, 98, 108] ∧
    stringLit "addr" = [97, 100, 100, 114] ∧
    (componentsGenerator N s).PrivateSeed.length = 32 ∧
    (componentsGenerator N s).PublicSeed.length = 32 ∧
    (componentsGenerator N s).AddrSeed.length = 32 := by
  simp only [componentsGenerator, mochimoHash, stringLit_seed, stringLit_publ, stringLit_addr,
    N.size_eq]
  simp

/-- C10: for every non-empty argument list with first element `s`, `Keygen` returns a nil
error and the keypair with `PrivateKey = s`, `Components = componentsGenerator(s)` and
`PublicKey = wotsPkgen` of the three components, and the random source is not read. -/
theorem Keygen_with_seed (N : NarrowHash) (W : WotsPrimitive) (s : List Byte)
    (rest : List (List Byte)) (rnd : RandSource) :
    (Keygen N W (s :: rest) rnd).1.err = none ∧
    (Keygen N W (s :: rest) rnd).1.val.PrivateKey = s ∧
    (Keygen N W (s :: rest) rnd).1.val.Components = componentsGenerator N s ∧
    (Keygen N W (s :: rest) rnd).1.val.PublicKey =
      W.wotsPkgen (Keygen N W (s :: rest) rnd).1.val.Components.PrivateSeed
        (Keygen N W (s :: rest) rnd).1.val.Components.PublicSeed
        (Keygen N W (s :: rest) rnd).1.val.Components.AddrSeed ∧
    (Keygen N W (s :: rest) rnd).2.reads = rnd.reads ∧
    (Keygen N W (s :: rest) rnd).2.outcome = rnd.outcome ∧
    (∀ rnd2, (Keygen N W (s :: rest) rnd2).1.val = (Keygen N W (s :: rest) rnd).1.val) :=
  ⟨rfl, rfl, rfl, rfl, rfl, rfl, fun _ => rfl⟩

theorem keygenFromSeed_roundtrip (N : NarrowHash) (W : WotsPrimitive)
    (hW : ∀ m priv pub addr : List Byte, m.length = 32 → priv.length = 32 → pub.length = 32 →
      addr.length = 32 →
      W.wotsPkFromSig (W.wotsSign m priv pub addr) m pub addr = W.wotsPkgen priv pub addr)
    (m : List Byte) (hm : m.length = 32) (k : List Byte) :
    (keygenFromSeed N W k).Verify W m ((keygenFromSeed N W k).Sign W m) = true := by
  simp only [Keypair.Verify, Keypair.Sign, keygenFromSeed, componentsGenerator, mochimoHash]
  rw [hW m _ _ _ hm (N.size_eq _) (N.size_eq _) (N.size_eq _)]
  simp

theorem makeBytes_length (n : Nat) : (makeBytes n).length = n := by
  simp [makeBytes]

theorem goCopy_of_le (dst src : List Byte) (h : src.length ≤ dst.length) :
    goCopy dst src = src ++ dst.drop src.length := by
  unfold goCopy
  rw [List.take_of_length_le h]

theorem sampleWots_contract (m priv pub addr : List Byte) (hm : m.length = 32)
    (hpriv : priv.length = 32) (hpub : pub.length = 32) (haddr : addr.length = 32) :
    sampleWots.wotsPkFromSig (sampleWots.wotsSign m priv pub addr) m pub addr
      = sampleWots.wotsPkgen priv pub addr := by
  have h96 : (priv ++ pub ++ addr).length = 96 := by
    simp only [List.length_append, hpriv, hpub, haddr]
  have h128 : (priv ++ pub ++ addr ++ m).length ≤ (makeBytes 2144).length := by
    rw [makeBytes_length, List.length_append, h96, hm]
    decide
  show goCopy (makeBytes 2144) (List.take 96 (goCopy (makeBytes 2144) (priv ++ pub ++ addr ++ m)))
    = goCopy (makeBytes 2144) (priv ++ pub ++ addr)
  rw [goCopy_of_le _ _ h128, List.append_assoc (priv ++ pub ++ addr), List.take_left' h96]

/-! ## Errors and the sign/verify round trip -/

/-- C11: `Keygen` and `NewKeychain` return an error exactly when they get no seed and the
read of the random source fails; then the value returned is the zero `Keypair` resp. the
zero `Keychain`. When the read succeeds with 32 bytes `r` the result is the one for the
explicit seed `r`, and with an explicit seed the error is nil. -/
theorem Keygen_NewKeychain_errors (N : NarrowHash) (W : WotsPrimitive)
    (args : List (List Byte)) (rnd : RandSource) (r : List Byte) (hr : r.length = 32) :
    ((Keygen N W args rnd).1.err ≠ none ↔ (args = [] ∧ rnd.read.1 = none)) ∧
    ((NewKeychain args rnd).1.err ≠ none ↔ (args = [] ∧ rnd.read.1 = none)) ∧
    ((Keygen N W args rnd).1.err ≠ none → (Keygen N W args rnd).1.val = Keypair.zero) ∧
    ((NewKeychain args rnd).1.err ≠ none → (NewKeychain args rnd).1.val = Keychain.zero) ∧
    (args = [] → rnd.read.1 = some r →
      (Keygen N W args rnd).1.val = (Keygen N W [r] rnd).1.val ∧
      (Keygen N W args rnd).1.err = (Keygen N W [r] rnd).1.err ∧
      (NewKeychain args rnd).1.val = (NewKeychain [r] rnd).1.val ∧
      (NewKeychain args rnd).1.err = (NewKeychain [r] rnd).1.err) ∧
    (args ≠ [] → (Keygen N W args rnd).1.err = none ∧ (NewKeychain args rnd).1.err = none) := by
  have hcopy : goCopy (makeBytes 32) r = r := goCopy_full _ _ (by simp [makeBytes, hr])
  cases args with
  | cons a rest => simp [Keygen, NewKeychain]
  | nil =>
    cases hread : rnd.outcome rnd.reads with
    | none => simp [Keygen, NewKeychain, RandSource.read, hread]
    | some r1 =>
      simp only [Keygen, NewKeychain, RandSource.read, hread]
      refine ⟨by simp, by simp, by simp, by simp, ?_, by simp⟩
      intro _ h
      have h1 : r1 = r := by simpa using h
      subst h1
      simp [hcopy]

/-- `Keygen_NewKeychain_errors` for a call without seed on a source that delivers 32 zero
bytes. -/
theorem Keygen_NewKeychain_errors_witness :
    (makeBytes 32).length = 32 ∧
    (((Keygen sampleNarrow sampleWots [] zeroRand).1.err ≠ none ↔
      (([] : List (List Byte)) = [] ∧ zeroRand.read.1 = none)) ∧
    ((NewKeychain [] zeroRand).1.err ≠ none ↔
      (([] : List (List Byte)) = [] ∧ zeroRand.read.1 = none)) ∧
    ((Keygen sampleNarrow sampleWots [] zeroRand).1.err ≠ none →
      (Keygen sampleNarrow sampleWots [] zeroRand).1.val = Keypair.zero) ∧
    ((NewKeychain [] zeroRand).1.err ≠ none → (NewKeychain [] zeroRand).1.val = Keychain.zero) ∧
    (([] : List (List Byte)) = [] → zeroRand.read.1 = some (makeBytes 32) →
      (Keygen sampleNarrow sampleWots [] zeroRand).1.val
        = (Keygen sampleNarrow sampleWots [makeBytes 32] zeroRand).1.val ∧
      (Keygen sampleNarrow sampleWots [] zeroRand).1.err
        = (Keygen sampleNarrow sampleWots [makeBytes 32] zeroRand).1.err ∧
      (NewKeychain [] zeroRand).1.val = (NewKeychain [makeBytes 32] zeroRand).1.val ∧
      (NewKeychain [] zeroRand).1.err = (NewKeychain [makeBytes 32] zeroRand).1.err) ∧
    (([] : List (List Byte)) ≠ [] →
      (Keygen sampleNarrow sampleWots [] zeroRand).1.err = none ∧
      (NewKeychain [] zeroRand).1.err = none)) :=
  ⟨by decide,
    Keygen_NewKeychain_errors sampleNarrow sampleWots [] zeroRand (makeBytes 32) (by decide)⟩

/-- C12: if the signature primitive recovers from a signature the public key of the seeds
that signed (for 32-byte inputs), then for every keypair that `Keygen` returns without
error, and every keypair that `Next` returns, `Verify(m, Sign(m))` is true for every 32-byte
message `m`. -/
theorem Sign_Verify_roundtrip (N : NarrowHash) (W : WotsPrimitive)
    (hW : ∀ m priv pub addr : List Byte, m.length = 32 → priv.length = 32 → pub.length = 32 →
      addr.length = 32 →
      W.wotsPkFromSig (W.wotsSign m priv pub addr) m pub addr = W.wotsPkgen priv pub addr)
    (m : List Byte) (hm : m.length = 32) :
    (∀ args rnd, (Keygen N W args rnd).1.err = none →
      (Keygen N W args rnd).1.val.Verify W m ((Keygen N W args rnd).1.val.Sign W m) = true) ∧
    (∀ H kc rnd r, Keychain.Next H N W kc rnd = some r →
      r.keypair.Verify W m (r.keypair.Sign W m) = true) := by
  constructor
  · intro args rnd herr
    cases args with
    | cons a rest => exact keygenFromSeed_roundtrip N W hW m hm a
    | nil =>
      cases hread : rnd.outcome rnd.reads with
      | none => simp [Keygen, RandSource.read, hread] at herr
      | some r1 =>
        simp only [Keygen, RandSource.read, hread]
        exact keygenFromSeed_roundtrip N W hW m hm _
  · intro H kc rnd r hr
    rw [Next_eq] at hr
    cases hr
    exact keygenFromSeed_roundtrip N W hW m hm _

/-- `Sign_Verify_roundtrip` for the stand-in primitive and the all-zero message. -/
theorem Sign_Verify_roundtrip_witness :
    (makeBytes 32).length = 32 ∧
    ((∀ args rnd, (Keygen sampleNarrow sampleWots args rnd).1.err = none →
      (Keygen sampleNarrow sampleWots args rnd).1.val.Verify sampleWots (makeBytes 32)
        ((Keygen sampleNarrow sampleWots args rnd).1.val.Sign sampleWots (makeBytes 32))
        = true) ∧
    (∀ H kc rnd r, Keychain.Next H sampleNarrow sampleWots kc rnd = some r →
      r.keypair.Verify sampleWots (makeBytes 32) (r.keypair.Sign sampleWots (makeBytes 32))
        = true)) :=
  ⟨by decide,
    Sign_Verify_roundtrip sampleNarrow sampleWots sampleWots_contract (makeBytes 32)
      (by decide)⟩

/-! ## Injectivity of the hash inputs -/

theorem bigEndian_eight_inj (i j : Nat) (hi : i < 2 ^ 64) (hj : j < 2 ^ 64)
    (h : bigEndian 8 i = bigEndian 8 j) : i = j := by
  have h1 := bigEndianValue_bigEndian 8 i
  have h2 := bigEndianValue_bigEndian 8 j
  rw [h, h2] at h1
  have e : (256 : Nat) ^ 8 = 2 ^ 64 := by decide
  rw [e] at h1
  rw [Nat.mod_eq_of_lt hi, Nat.mod_eq_of_lt hj] at h1
  exact h1.symm

theorem preimage_inj (m m1 : List Byte) (i j : Nat) (hi : i < 2 ^ 64) (hj : j < 2 ^ 64)
    (h : m ++ bigEndian 8 i = m1 ++ bigEndian 8 j) : m = m1 ∧ i = j := by
  have hlen : (bigEndian 8 i).length = (bigEndian 8 j).length := by
    rw [bigEndian_length, bigEndian_length]
  obtain ⟨h1, h2⟩ := List.append_inj' h hlen
  exact ⟨h1, bigEndian_eight_inj i j hi hj h2⟩

theorem idBytes_eq (i : Nat) : goCopy (makeBytes 8) (PutUint64 i) = bigEndian 8 i := by
  rw [goCopy_full _ _ (by simp [makeBytes, PutUint64]), PutUint64_eq_bigEndian]

/-- Without a collision of the hash on the inputs that `DeriveSeed(m, ·)` hashes, different
indices give different secrets. -/
theorem secret_ne_of_collisionFree (H : WideHash) (m : List Byte)
    (hcf1 : CollisionFreeOn H.sum (fun x => ∃ i, i < 2 ^ 64 ∧ x = m ++ bigEndian 8 i))
    (hcf2 : CollisionFreeOn (fun x => (H.sum x).take 32)
      (fun x => ∃ i, i < 2 ^ 64 ∧ x = H.sum (m ++ bigEndian 8 i) ++ bigEndian 4 0))
    (i j : Nat) (hi : i < 2 ^ 64) (hj : j < 2 ^ 64) (hij : i ≠ j) :
    (H.sum (H.sum (m ++ bigEndian 8 i) ++ bigEndian 4 0)).take 32
      ≠ (H.sum (H.sum (m ++ bigEndian 8 j) ++ bigEndian 4 0)).take 32 := by
  intro h
  have h2 := hcf2 _ _ ⟨i, hi, rfl⟩ ⟨j, hj, rfl⟩ h
  have h1 := hcf1 _ _ ⟨i, hi, rfl⟩ ⟨j, hj, rfl⟩ (List.append_cancel_right h2)
  exact hij (preimage_inj m m i j hi hj h1).2

/-- C19: the bytes that `DeriveSeed` hands to SHA-512 are `masterSeed || BE64(index)`, and
for 64-bit indices they determine both parts: equal hash inputs come from equal master
seeds and equal indices. -/
theorem DeriveSeed_preimage_injective (ms ms1 : Slice) (i j : Nat) (hi : i < 2 ^ 64)
    (hj : j < 2 ^ 64)
    (h : (goAppend ms (goCopy (makeBytes 8) (PutUint64 i))).1.bytes
      = (goAppend ms1 (goCopy (makeBytes 8) (PutUint64 j))).1.bytes) :
    (goAppend ms (goCopy (makeBytes 8) (PutUint64 i))).1.bytes = ms.bytes ++ bigEndian 8 i ∧
    (∀ H : WideHash, ∃ d, DeriveSeed H ms i = some d ∧
      d.prng.seed = H.sum (ms.bytes ++ bigEndian 8 i)) ∧
    ms.bytes = ms1.bytes ∧ i = j := by
  rw [idBytes_eq, idBytes_eq, goAppend_bytes, goAppend_bytes] at h
  refine ⟨by rw [idBytes_eq, goAppend_bytes], fun H => ⟨_, DeriveSeed_eq H ms i, rfl⟩, ?_⟩
  exact preimage_inj _ _ i j hi hj h

/-- `DeriveSeed_preimage_injective` for the all-zero seed in two slices of different
capacity, at index 258. -/
theorem DeriveSeed_preimage_injective_witness :
    (258 < 2 ^ 64 ∧ 258 < 2 ^ 64 ∧
      (goAppend (Slice.ofArray (makeBytes 32)) (goCopy (makeBytes 8) (PutUint64 258))).1.bytes
        = (goAppend ⟨makeBytes 48, 32⟩ (goCopy (makeBytes 8) (PutUint64 258))).1.bytes) ∧
    ((goAppend (Slice.ofArray (makeBytes 32)) (goCopy (makeBytes 8) (PutUint64 258))).1.bytes
      = (Slice.ofArray (makeBytes 32)).bytes ++ bigEndian 8 258 ∧
    (∀ H : WideHash, ∃ d, DeriveSeed H (Slice.ofArray (makeBytes 32)) 258 = some d ∧
      d.prng.seed = H.sum ((Slice.ofArray (makeBytes 32)).bytes ++ bigEndian 8 258)) ∧
    (Slice.ofArray (makeBytes 32)).bytes = (⟨makeBytes 48, 32⟩ : Slice).bytes ∧ 258 = 258) :=
  ⟨⟨by decide, by decide, by decide⟩,
    DeriveSeed_preimage_injective (Slice.ofArray (makeBytes 32)) ⟨makeBytes 48, 32⟩ 258 258
      (by decide) (by decide) (by decide)⟩

/-! ## Domain separation -/

theorem sampleNarrow_collisionFree :
    CollisionFreeOn sampleNarrow.sum256 (fun x => x ∈ [makeBytes 32 ++ stringLit "seed",
      makeBytes 32 ++ stringLit "publ", makeBytes 32 ++ stringLit "addr", makeBytes 32]) := by
  intro x y hx hy
  simp only [List.mem_cons, List.mem_singleton, List.not_mem_nil, or_false] at hx hy
  rcases hx with rfl | rfl | rfl | rfl <;> rcases hy with rfl | rfl | rfl | rfl <;>
    first
    | (intro _; rfl)
    | (intro h; exact absurd h (by decide))

/-- C14: the four hash inputs `s || "seed"`, `s || "publ"`, `s || "addr"` and `s` are
pairwise different byte strings; so for a hash without collision among these four, the three
outputs of `componentsGenerator(s)` are pairwise distinct and each differs from `H32(s)`. -/
theorem componentsGenerator_domain_separation (N : NarrowHash) (s : List Byte)
    (hN : CollisionFreeOn N.sum256 (fun x => x ∈ [s ++ stringLit "seed",
      s ++ stringLit "publ", s ++ stringLit "addr", s])) :
    List.Pairwise (fun a b => a ≠ b)
      [s ++ stringLit "seed", s ++ stringLit "publ", s ++ stringLit "addr", s] ∧
    (componentsGenerator N s).PrivateSeed ≠ (componentsGenerator N s).PublicSeed ∧
    (componentsGenerator N s).PrivateSeed ≠ (componentsGenerator N s).AddrSeed ∧
    (componentsGenerator N s).PublicSeed ≠ (componentsGenerator N s).AddrSeed ∧
    (componentsGenerator N s).PrivateSeed ≠ N.sum256 s ∧
    (componentsGenerator N s).PublicSeed ≠ N.sum256 s ∧
    (componentsGenerator N s).AddrSeed ≠ N.sum256 s := by
  have h12 : s ++ stringLit "seed" ≠ s ++ stringLit "publ" := by
    intro h; exact absurd (List.append_cancel_left h) (by decide)
  have h13 : s ++ stringLit "seed" ≠ s ++ stringLit "addr" := by
    intro h; exact absurd (List.append_cancel_left h) (by decide)
  have h23 : s ++ stringLit "publ" ≠ s ++ stringLit "addr" := by
    intro h; exact absurd (List.append_cancel_left h) (by decide)
  have hlen : ∀ t : List Byte, t.length = 4 → s ++ t ≠ s := by
    intro t ht h
    have := congrArg List.length h
    simp [ht] at this
  have h1 := hlen (stringLit "seed") (by decide)
  have h2 := hlen (stringLit "publ") (by decide)
  have h3 := hlen (stringLit "addr") (by decide)
  have hne : ∀ x y, x ∈ [s ++ stringLit "seed", s ++ stringLit "publ", s ++ stringLit "addr", s]
      → y ∈ [s ++ stringLit "seed", s ++ stringLit "publ", s ++ stringLit "addr", s]
      → x ≠ y → N.sum256 x ≠ N.sum256 y :=
    fun x y hx hy hxy h => hxy (hN x y hx hy h)
  refine ⟨?_, ?_, ?_, ?_, ?_, ?_, ?_⟩
  · simp [h12, h13, h23, h1, h2, h3]
  · exact hne _ _ (by simp) (by simp) h12
  · exact hne _ _ (by simp) (by simp) h13
  · exact hne _ _ (by simp) (by simp) h23
  · exact hne _ _ (by simp) (by simp) h1
  · exact hne _ _ (by simp) (by simp) h2
  · exact hne _ _ (by simp) (by simp) h3

/-- `componentsGenerator_domain_separation` for the all-zero seed under `sampleNarrow`. -/
theorem componentsGenerator_domain_separation_witness :
    CollisionFreeOn sampleNarrow.sum256 (fun x => x ∈ [makeBytes 32 ++ stringLit "seed",
      makeBytes 32 ++ stringLit "publ", makeBytes 32 ++ stringLit "addr", makeBytes 32]) ∧
    (List.Pairwise (fun a b => a ≠ b)
      [makeBytes 32 ++ stringLit "seed", makeBytes 32 ++ stringLit "publ",
        makeBytes 32 ++ stringLit "addr", makeBytes 32] ∧
    (componentsGenerator sampleNarrow (makeBytes 32)).PrivateSeed
      ≠ (componentsGenerator sampleNarrow (makeBytes 32)).PublicSeed ∧
    (componentsGenerator sampleNarrow (makeBytes 32)).PrivateSeed
      ≠ (componentsGenerator sampleNarrow (makeBytes 32)).AddrSeed ∧
    (componentsGenerator sampleNarrow (makeBytes 32)).PublicSeed
      ≠ (componentsGenerator sampleNarrow (makeBytes 32)).AddrSeed ∧
    (componentsGenerator sampleNarrow (makeBytes 32)).PrivateSeed
      ≠ sampleNarrow.sum256 (makeBytes 32) ∧
    (componentsGenerator sampleNarrow (makeBytes 32)).PublicSeed
      ≠ sampleNarrow.sum256 (makeBytes 32) ∧
    (componentsGenerator sampleNarrow (makeBytes 32)).AddrSeed
      ≠ sampleNarrow.sum256 (makeBytes 32)) :=
  ⟨sampleNarrow_collisionFree,
    componentsGenerator_domain_separation sampleNarrow (makeBytes 32)
      sampleNarrow_collisionFree⟩

/-! ## Failure modes of the generator -/

/-- From a state with `pos ≤ length = len(result)` no slice expression of the loop is out of
range. -/
theorem nextBytesLoopChecked_eq (H : WideHash) (length : Nat) :
    ∀ (m : Nat) (g : DigestRandomGenerator) (result : List Byte) (pos : Nat),
      length - pos = m → pos ≤ length → result.length = length →
      nextBytesLoopChecked H length g result pos = some (nextBytesLoop H length g result pos)
    := by
  intro m
  induction m using Nat.strong_induction_on with
  | _ m ih =>
    intro g result pos hm hpos hlen
    rw [nextBytesLoopChecked, nextBytesLoop]
    by_cases hlt : pos < length
    · rw [if_pos hlt, if_pos hlt]
      have hd := refill_digest_pos H g
      have hk1 := copyLen_le_left (length - pos) (refill H g).digest.length
      have hk2 := copyLen_le_right (length - pos) (refill H g).digest.length
      have hk3 := copyLen_pos (length - pos) (refill H g).digest.length (by omega) hd
      simp only
      rw [if_pos ⟨by omega, hk2⟩]
      generalize copyLen (length - pos) (refill H g).digest.length = n at hk1 hk2 hk3
      have hlen1 : (List.take pos result ++
          goCopy (List.drop pos result) (List.take n (refill H g).digest)).length = length := by
        simp [goCopy_length]
        omega
      exact ih (length - (pos + n)) (by omega) _ _ (pos + n) rfl (by omega) hlen1
    · rw [if_neg hlt, if_neg hlt]

theorem NextBytesChecked_eq (H : WideHash) (g : DigestRandomGenerator) (n : Int) :
    NextBytesChecked H g n = NextBytes H g n := by
  by_cases h : n < 0 ∨ (maxAlloc : Int) < n
  · unfold NextBytesChecked NextBytes
    rw [makeSlice_panic n h]
  · unfold NextBytesChecked NextBytes
    rw [makeSlice_of_le n (by omega) (by omega)]
    simp only
    rw [nextBytesLoopChecked_eq H n.toNat n.toNat g _ 0 rfl (Nat.zero_le _)
      (makeBytes_length _)]

/-- C15, as stated, fails: `NextBytes(-1)` panics, since `make([]byte, length)` is given a
negative length, and `NextBytes(2^63 - 1)` panics, since the length is above the
allocation limit. -/
theorem NextBytes_negative_length_panics :
    NextBytes sampleWide sampleGen (-1) = none ∧
    NextBytesChecked sampleWide sampleGen (-1) = none ∧
    NextBytes sampleWide sampleGen (2 ^ 63 - 1) = none ∧
    NextBytesChecked sampleWide sampleGen (2 ^ 63 - 1) = none := by
  have h1 : NextBytes sampleWide sampleGen (-1) = none :=
    NextBytes_panic _ _ _ (Or.inl (by decide))
  have h2 : NextBytes sampleWide sampleGen (2 ^ 63 - 1) = none :=
    NextBytes_panic _ _ _ (Or.inr (maxAlloc_lt _ (by decide)))
  exact ⟨h1, by rw [NextBytesChecked_eq, h1], h2, by rw [NextBytesChecked_eq, h2]⟩

/-- C15, amended: for every generator state `AddSeedMaterial` completes for every byte
string, and `NextBytes` completes without panic, with no slice expression out of range, and
returns `n` bytes for every length `n` that `make` accepts, `0 ≤ n ≤ maxAlloc`; for `n < 0`
and for `n > maxAlloc` it panics in `make`. -/
theorem NextBytes_no_failure (H : WideHash) (g : DigestRandomGenerator) (x : List Byte)
    (n : Int) (hn : 0 ≤ n) (hmax : n ≤ (maxAlloc : Int)) :
    (∃ g1, AddSeedMaterial H g x = g1 ∧ g1.digest.length = 64) ∧
    (∃ r, NextBytes H g n = some r ∧ NextBytesChecked H g n = some r ∧
      r.1.length = n.toNat) ∧
    (∀ k : Int, k < 0 ∨ (maxAlloc : Int) < k →
      NextBytes H g k = none ∧ NextBytesChecked H g k = none) := by
  refine ⟨⟨_, rfl, ?_⟩, ⟨_, NextBytes_eq_drawBytes H g n hn hmax, ?_, drawBytes_length H _ g⟩,
    ?_⟩
  · rw [AddSeedMaterial_eq]; exact H.size_eq _
  · rw [NextBytesChecked_eq]; exact NextBytes_eq_drawBytes H g n hn hmax
  · intro k hk
    exact ⟨NextBytes_panic H g k hk, by rw [NextBytesChecked_eq]; exact NextBytes_panic H g k hk⟩

/-- `NextBytes_no_failure` on `sampleGen` with 70 bytes asked for. -/
theorem NextBytes_no_failure_witness :
    ((0 : Int) ≤ 70 ∧ (70 : Int) ≤ (maxAlloc : Int)) ∧
    ((∃ g1, AddSeedMaterial sampleWide sampleGen [4, 5] = g1 ∧ g1.digest.length = 64) ∧
    (∃ r, NextBytes sampleWide sampleGen 70 = some r ∧
      NextBytesChecked sampleWide sampleGen 70 = some r ∧ r.1.length = (70 : Int).toNat) ∧
    (∀ k : Int, k < 0 ∨ (maxAlloc : Int) < k → NextBytes sampleWide sampleGen k = none ∧
      NextBytesChecked sampleWide sampleGen k = none)) :=
  ⟨⟨by decide, small_le_maxAlloc _ (by decide)⟩,
    NextBytes_no_failure sampleWide sampleGen [4, 5] 70 (by decide)
      (small_le_maxAlloc _ (by decide))⟩

/-! ## The generator returned by `DeriveSeed` -/

theorem take_append_drop_append (D S : List Byte) (a n : Nat) (h : a ≤ D.length) :
    D.take a ++ (D.drop a ++ S).take n = (D ++ S).take (a + n) := by
  have hl : (D.take a).length = a := by rw [List.length_take]; omega
  have hD : D ++ S = D.take a ++ (D.drop a ++ S) := by
    rw [← List.append_assoc, List.take_append_drop]
  rw [hD]
  generalize D.take a = A at hl ⊢
  generalize D.drop a = B
  subst hl
  rw [List.take_append]

/-- C16, as stated, fails: on the generator that `DeriveSeed` returns, `NextBytes(n)` for
`n = 2^63 - 1` (the largest `int`) panics in `make`, so there are no bytes that continue
the stream. -/
theorem DeriveSeed_generator_limit :
    ∃ d, DeriveSeed sampleWide (Slice.ofArray (makeBytes 32)) 7 = some d ∧
      NextBytes sampleWide d.prng (2 ^ 63 - 1) = none :=
  ⟨_, DeriveSeed_eq _ _ 7, NextBytes_panic _ _ _ (Or.inr (maxAlloc_lt _ (by decide)))⟩

/-- C16, amended: with `L = H64(masterSeed || BE64(i))`, the generator that `DeriveSeed`
returns has seed `L`, counter 1 and 32 buffered bytes; for every `n` with
`0 ≤ n ≤ maxAlloc` the secret followed by the bytes of `NextBytes(n)` on it is the
`32 + n`-byte prefix of `H64(L || BE32(0)) || H64(L || BE32(1)) || ...`, and the next 32
bytes drawn are the second half of the first digest. -/
theorem DeriveSeed_generator_continues (H : WideHash) (ms : Slice) (i : Nat) (n : Int)
    (hn : 0 ≤ n) (hmax : n ≤ (maxAlloc : Int)) :
    ∃ d, DeriveSeed H ms i = some d ∧
      d.prng.seed = H.sum (ms.bytes ++ bigEndian 8 i) ∧
      d.prng.count = 1 ∧ d.prng.digest.length = 32 ∧
      (∃ out g1, NextBytes H d.prng n = some (out, g1) ∧
        ∀ k, 32 + n.toNat ≤ 64 * k →
          d.secret ++ out
            = (digestStream H (H.sum (ms.bytes ++ bigEndian 8 i)) 0 k).take (32 + n.toNat)) ∧
      (∃ g2, NextBytes H d.prng 32 =
        some ((H.sum (H.sum (ms.bytes ++ bigEndian 8 i) ++ bigEndian 4 0)).drop 32, g2)) := by
  have hD := H.size_eq (H.sum (ms.bytes ++ bigEndian 8 i) ++ bigEndian 4 0)
  refine ⟨_, DeriveSeed_eq H ms i, rfl, rfl, ?_, ?_, ?_⟩
  · simp [hD]
  · refine ⟨_, _, NextBytes_eq_drawBytes H _ n hn hmax, ?_⟩
    intro k hk
    cases k with
    | zero => omega
    | succ k =>
      rw [drawBytes_stream H n.toNat _ k (by simp [hD]; omega), digestStream_succ]
      simp only [Nat.zero_mod, Nat.zero_add]
      exact take_append_drop_append _ _ 32 n.toNat (by omega)
  · have h32 : (32 : Int).toNat = 32 := rfl
    refine ⟨⟨H.sum (ms.bytes ++ bigEndian 8 i), [], 1⟩, ?_⟩
    rw [NextBytes_eq_drawBytes H _ 32 (by decide) (small_le_maxAlloc 32 (by decide)), h32,
      drawBytes_chunk H 32 _ (by simp [hD])]
    simp [List.take_of_length_le, hD]

/-- `DeriveSeed_generator_continues` for the all-zero seed at index 7, drawing 70 bytes. -/
theorem DeriveSeed_generator_continues_witness :
    ((0 : Int) ≤ 70 ∧ (70 : Int) ≤ (maxAlloc : Int)) ∧
    ∃ d, DeriveSeed sampleWide (Slice.ofArray (makeBytes 32)) 7 = some d ∧
      d.prng.seed = sampleWide.sum ((Slice.ofArray (makeBytes 32)).bytes ++ bigEndian 8 7) ∧
      d.prng.count = 1 ∧ d.prng.digest.length = 32 ∧
      (∃ out g1, NextBytes sampleWide d.prng 70 = some (out, g1) ∧
        ∀ k, 32 + (70 : Int).toNat ≤ 64 * k →
          d.secret ++ out
            = (digestStream sampleWide
                (sampleWide.sum ((Slice.ofArray (makeBytes 32)).bytes ++ bigEndian 8 7)) 0 k).take
              (32 + (70 : Int).toNat)) ∧
      (∃ g2, NextBytes sampleWide d.prng 32 =
        some ((sampleWide.sum (sampleWide.sum
          ((Slice.ofArray (makeBytes 32)).bytes ++ bigEndian 8 7) ++ bigEndian 4 0)).drop 32,
          g2)) :=
  ⟨⟨by decide, small_le_maxAlloc _ (by decide)⟩,
    DeriveSeed_generator_continues sampleWide (Slice.ofArray (makeBytes 32)) 7 70 (by decide)
      (small_le_maxAlloc _ (by decide))⟩

/-! ## Invariant of the digest buffer -/

theorem BufferInv_generateNextDigest (H : WideHash) (g : DigestRandomGenerator) :
    BufferInv H (generateNextDigest H g) := by
  refine ⟨Nat.mod_lt _ (by decide), ?_⟩
  have h : ((g.count + 1) % 2 ^ 32 + 2 ^ 32 - 1) % 2 ^ 32 = g.count % 2 ^ 32 := by omega
  simp only [generateNextDigest]
  rw [h, bigEndian_four_mod, PutUint32_eq_bigEndian]

theorem BufferInv_refill (H : WideHash) (g : DigestRandomGenerator) (h : BufferInv H g) :
    BufferInv H (refill H g) := by
  unfold refill
  split
  · exact BufferInv_generateNextDigest H g
  · exact h

theorem BufferInv_drawBytes (H : WideHash) (n : Nat) :
    ∀ g : DigestRandomGenerator, BufferInv H g → BufferInv H (drawBytes H n g).2 := by
  induction n with
  | zero => intro g h; exact h
  | succ n ih =>
    intro g h
    have h1 := BufferInv_refill H g h
    simp only [drawBytes, drawByte]
    apply ih
    exact ⟨h1.1, (List.drop_suffix 1 _).trans h1.2⟩

theorem NextBytes_some (H : WideHash) (g : DigestRandomGenerator) (n : Int) (out : List Byte)
    (g1 : DigestRandomGenerator) (h : NextBytes H g n = some (out, g1)) :
    (0 ≤ n ∧ n ≤ (maxAlloc : Int)) ∧ g1 = (drawBytes H n.toNat g).2 := by
  by_cases hn : n < 0 ∨ (maxAlloc : Int) < n
  · rw [NextBytes_panic H g n hn] at h
    cases h
  · rw [NextBytes_eq_drawBytes H g n (by omega) (by omega)] at h
    have h1 := congrArg Prod.snd (Option.some.inj h)
    exact ⟨⟨by omega, by omega⟩, h1.symm⟩

theorem BufferInv_of_reachable (H : WideHash) (g : DigestRandomGenerator)
    (hg : Reachable H g) : BufferInv H g := by
  induction hg with
  | fresh =>
    refine ⟨by decide, ?_⟩
    show List.IsSuffix [] _
    exact List.nil_suffix
  | addSeedMaterial g x _ _ => exact BufferInv_generateNextDigest H _
  | nextBytes g n out g1 _ hnext ih =>
    obtain ⟨_, rfl⟩ := NextBytes_some H g n out g1 hnext
    exact BufferInv_drawBytes H _ g ih

/-- C17: in every generator state reachable from `NewDigestRandomGenerator()` by calls of
`AddSeedMaterial` and `NextBytes`, the buffer has at most 64 bytes and is a suffix of
`H64(seed || BE32((count - 1) mod 2^32))` for the current seed and counter (a `uint32`);
in the fresh state the buffer is empty and the counter is 0. -/
theorem reachable_buffer_invariant (H : WideHash) (g : DigestRandomGenerator)
    (hg : Reachable H g) :
    g.digest.length ≤ 64 ∧
    g.count < 2 ^ 32 ∧
    List.IsSuffix g.digest (H.sum (g.seed ++ bigEndian 4 ((g.count + 2 ^ 32 - 1) % 2 ^ 32))) ∧
    NewDigestRandomGenerator.digest = [] ∧ NewDigestRandomGenerator.count = 0 ∧
    NewDigestRandomGenerator.seed = [] := by
  obtain ⟨h1, h2⟩ := BufferInv_of_reachable H g hg
  refine ⟨?_, h1, h2, rfl, rfl, rfl⟩
  have := h2.length_le
  rw [H.size_eq] at this
  exact this

/-- `reachable_buffer_invariant` for the state after seeding a fresh generator with two
bytes. -/
theorem reachable_buffer_invariant_witness :
    Reachable sampleWide (AddSeedMaterial sampleWide NewDigestRandomGenerator [4, 5]) ∧
    ((AddSeedMaterial sampleWide NewDigestRandomGenerator [4, 5]).digest.length ≤ 64 ∧
    (AddSeedMaterial sampleWide NewDigestRandomGenerator [4, 5]).count < 2 ^ 32 ∧
    List.IsSuffix (AddSeedMaterial sampleWide NewDigestRandomGenerator [4, 5]).digest
      (sampleWide.sum ((AddSeedMaterial sampleWide NewDigestRandomGenerator [4, 5]).seed ++
        bigEndian 4
          (((AddSeedMaterial sampleWide NewDigestRandomGenerator [4, 5]).count + 2 ^ 32 - 1)
            % 2 ^ 32))) ∧
    NewDigestRandomGenerator.digest = [] ∧ NewDigestRandomGenerator.count = 0 ∧
    NewDigestRandomGenerator.seed = []) :=
  ⟨Reachable.addSeedMaterial _ _ Reachable.fresh,
    reachable_buffer_invariant sampleWide _ (Reachable.addSeedMaterial _ _ Reachable.fresh)⟩

/-! ## Lazy computation of digests -/

/-- Drawing `m > 0` bytes from a state with an empty buffer computes `ceil(m / 64)`
digests. -/
theorem drawBytes_empty_state (H : WideHash) :
    ∀ (m : Nat) (g : DigestRandomGenerator), 0 < m → g.digest = [] →
      (drawBytes H m g).2.count = (g.count + (m + 63) / 64) % 2 ^ 32 ∧
      (drawBytes H m g).2.digest.length = (64 - m % 64) % 64 := by
  intro m
  induction m using Nat.strong_induction_on with
  | _ m ih =>
    intro g hm hg
    have hlen := H.size_eq (g.seed ++ PutUint32 g.count)
    have hre : refill H g =
        ⟨g.seed, H.sum (g.seed ++ PutUint32 g.count), (g.count + 1) % 2 ^ 32⟩ := by
      simp [refill, generateNextDigest, hg]
    rw [← drawBytes_refill H m g hm, hre]
    by_cases h64 : m ≤ 64
    · rw [drawBytes_chunk H m _ (by simp only [hlen]; exact h64)]
      simp only [List.length_drop, hlen]
      omega
    · have hsplit : m = 64 + (m - 64) := by omega
      rw [hsplit, drawBytes_add, drawBytes_chunk H 64 _ (by simp only [hlen]; omega)]
      simp only
      have hnil : List.drop 64 (H.sum (g.seed ++ PutUint32 g.count)) = [] :=
        List.drop_of_length_le (by omega)
      obtain ⟨h1, h2⟩ := ih (m - 64) (by omega)
        ⟨g.seed, List.drop 64 (H.sum (g.seed ++ PutUint32 g.count)), (g.count + 1) % 2 ^ 32⟩
        (by omega) hnil
      rw [h1, h2]
      simp only
      omega

/-- Counter and buffer length after drawing `n` bytes. -/
theorem drawBytes_state (H : WideHash) (n : Nat) (g : DigestRandomGenerator) :
    (drawBytes H n g).2.seed = g.seed ∧
    (n ≤ g.digest.length → (drawBytes H n g).2.count = g.count ∧
      (drawBytes H n g).2.digest.length = g.digest.length - n) ∧
    (g.digest.length < n →
      (drawBytes H n g).2.count
        = (g.count + (n - g.digest.length + 63) / 64) % 2 ^ 32 ∧
      (drawBytes H n g).2.digest.length = (64 - (n - g.digest.length) % 64) % 64) := by
  refine ⟨drawBytes_seed H n g, ?_, ?_⟩
  · intro h
    rw [drawBytes_chunk H n g h]
    simp
  · intro h
    have hsplit : n = g.digest.length + (n - g.digest.length) := by omega
    have hnil : List.drop g.digest.length g.digest = [] := List.drop_of_length_le (Nat.le_refl _)
    have := drawBytes_empty_state H (n - g.digest.length)
      ⟨g.seed, List.drop g.digest.length g.digest, g.count⟩ (by omega) hnil
    rw [hsplit, drawBytes_add, drawBytes_chunk H g.digest.length g (Nat.le_refl _)]
    simp only
    have e : g.digest.length + (n - g.digest.length) - g.digest.length = n - g.digest.length := by
      omega
    rw [e]
    exact this

/-- C18, as stated, fails: on `sampleGen` (3 bytes buffered, counter 5) `NextBytes(n)` for
`n = 2^63 - 1` (the largest `int`) panics in `make` before any digest is computed, so there
is no state after the call with the counter moved on by `ceil((n - 3) / 64)`. -/
theorem NextBytes_lazy_digests_limit :
    NextBytes sampleWide sampleGen (2 ^ 63 - 1) = none ∧
    ¬ ∃ out g1, NextBytes sampleWide sampleGen (2 ^ 63 - 1) = some (out, g1) ∧
      g1.count = (sampleGen.count
        + (((2 : Int) ^ 63 - 1).toNat - sampleGen.digest.length + 63) / 64) % 2 ^ 32 := by
  have h1 : NextBytes sampleWide sampleGen (2 ^ 63 - 1) = none :=
    NextBytes_panic _ _ _ (Or.inr (maxAlloc_lt _ (by decide)))
  refine ⟨h1, ?_⟩
  rintro ⟨out, g1, h, _⟩
  rw [h1] at h
  cases h

/-- C18, amended: for every generator state with `d` buffered bytes and counter `c` and
every `n` with `0 ≤ n ≤ maxAlloc`, `NextBytes(n)` leaves the seed unchanged; if `n ≤ d` the
counter stays `c` and `d - n` bytes remain buffered; if `n > d` the counter becomes
`c + ceil((n - d) / 64)` modulo `2^32` and `(64 - (n - d) mod 64) mod 64` bytes remain;
`NextBytes(0)` returns no byte and leaves the state as it is. -/
theorem NextBytes_lazy_digests (H : WideHash) (g : DigestRandomGenerator) (n : Int)
    (hn : 0 ≤ n) (hmax : n ≤ (maxAlloc : Int)) :
    (∃ out g1, NextBytes H g n = some (out, g1) ∧ g1.seed = g.seed ∧
      (n.toNat ≤ g.digest.length →
        g1.count = g.count ∧ g1.digest.length = g.digest.length - n.toNat) ∧
      (g.digest.length < n.toNat →
        g1.count = (g.count + (n.toNat - g.digest.length + 63) / 64) % 2 ^ 32 ∧
        g1.digest.length = (64 - (n.toNat - g.digest.length) % 64) % 64)) ∧
    NextBytes H g 0 = some ([], g) := by
  obtain ⟨h1, h2, h3⟩ := drawBytes_state H n.toNat g
  refine ⟨⟨_, _, NextBytes_eq_drawBytes H g n hn hmax, h1, h2, h3⟩, ?_⟩
  rw [NextBytes_eq_drawBytes H g 0 (by decide) (small_le_maxAlloc 0 (by decide))]
  rfl

/-- `NextBytes_lazy_digests` on `sampleGen` (3 bytes buffered) with 70 bytes asked for. -/
theorem NextBytes_lazy_digests_witness :
    ((0 : Int) ≤ 70 ∧ (70 : Int) ≤ (maxAlloc : Int)) ∧
    ((∃ out g1, NextBytes sampleWide sampleGen 70 = some (out, g1) ∧ g1.seed = sampleGen.seed ∧
      ((70 : Int).toNat ≤ sampleGen.digest.length →
        g1.count = sampleGen.count ∧
        g1.digest.length = sampleGen.digest.length - (70 : Int).toNat) ∧
      (sampleGen.digest.length < (70 : Int).toNat →
        g1.count = (sampleGen.count + ((70 : Int).toNat - sampleGen.digest.length + 63) / 64)
          % 2 ^ 32 ∧
        g1.digest.length = (64 - ((70 : Int).toNat - sampleGen.digest.length) % 64) % 64)) ∧
    NextBytes sampleWide sampleGen 0 = some ([], sampleGen)) :=
  ⟨⟨by decide, small_le_maxAlloc _ (by decide)⟩,
    NextBytes_lazy_digests sampleWide sampleGen 70 (by decide)
      (small_le_maxAlloc _ (by decide))⟩

end WOTS
